import Mathlib

/-!
# Verification of the altamisa ISA-tab read/validate/write pipeline

This file embeds the data model and operations of the altamisa repository in
Lean 4 and proves the testable properties stated in its specification.

The repository snapshot under verification contains the dot exporter
(altamisa/apps/isatab2dot.py), the package metadata and the assay writer test
suite; the core pipeline package (altamisa.isatab: sheet tokenizer, header
schema resolver, graph builder, validator and writer) is not part of the
snapshot.  Definitions for the missing parts are modelled from the
specification, as indicated by their doc comments; the dot exporter is
translated directly from the source.
-/

namespace Altamisa

/-! ## Data model (spec section 3) -/

/-- Material kinds, one of Source, Sample, Extract, LabeledExtract, DataFile
(spec section 3, Material). -/
inductive MatKind where
  | source
  | sample
  | extract
  | labeledExtract
  | dataFile
deriving DecidableEq, Repr

/-- An attribute value: a qualifier (the bracketed part of the column label,
or the full column label) together with the cell value.  Trailing
ontology-annotation columns are modelled as further attribute columns attached
to the same node (spec sections 3 and 4.2). -/
structure Attr where
  qual : String
  value : String
deriving DecidableEq, Repr

/-- A Material node: name, material kind and ordered attribute values
(spec section 3). -/
structure Material where
  name : String
  kind : MatKind
  attrs : List Attr
deriving DecidableEq, Repr

/-- A Process node: name, the optional process-name-type column label that
named it (for example "Scan Name"), and ordered attribute values.  Modelled
from the spec: the protocol reference, parameter values, date and performer of
a Process (spec section 3) are modelled uniformly as attribute columns
attached to the process node; the protocol reference is recovered by
`rawProtocolRef` and `protocolRefOf`. -/
structure Process where
  name : String
  nameType : Option String
  attrs : List Attr
deriving DecidableEq, Repr

/-- A directed arc: tail node name and head node name (spec section 3). -/
structure Arc where
  tail : String
  head : String
deriving DecidableEq, Repr

/-- A per-sheet graph: a name-keyed Material mapping, a name-keyed Process
mapping and an ordered arc sequence (spec section 3). -/
structure Graph where
  materials : List (String × Material)
  processes : List (String × Process)
  arcs : List Arc
deriving DecidableEq, Repr

/-- First-match association lookup used for the name-keyed node mappings. -/
def alookup (n : String) : List (String × α) → Option α
  | [] => none
  | (k, v) :: rest => if k = n then some v else alookup n rest

/-- The stored protocol-reference attribute of a process, empty when absent.
Mirrors reading the protocol_ref field of a process object. -/
def rawProtocolRef (p : Process) : String :=
  match p.attrs.find? (fun a => a.qual == "Protocol REF") with
  | some a => a.value
  | none => ""

/-- Modelled from the spec: the protocol reference of a Process "may be
absent/\"Unknown\"" (spec section 3); an absent or empty reference is
normalised to "Unknown", as the validator messages of the test suite show. -/
def protocolRefOf (p : Process) : String :=
  if rawProtocolRef p = "" then "Unknown" else rawProtocolRef p

/-! ## Header schema (spec section 4.2) -/

/-- The kind of node a node-producing column creates. -/
inductive NodeKind where
  | mat (k : MatKind)
  | proc (nameType : Option String)
deriving DecidableEq, Repr

/-- A resolved column descriptor (spec section 4.2): a Material-kind column, a
Process marker column (plain "Protocol REF" when `nameType` is `none`, a named
process-type column otherwise), or an attribute column carrying its qualifier.
Modelled from the spec: ontology-annotation columns are modelled as attribute
columns attached to the same preceding node. -/
inductive ColType where
  | matCol (k : MatKind)
  | procCol (nameType : Option String)
  | attrCol (qual : String)
deriving DecidableEq, Repr

/-- Whether a column descriptor produces a node. -/
def isNodeCol : ColType → Bool
  | ColType.matCol _ => true
  | ColType.procCol _ => true
  | ColType.attrCol _ => false

/-- One node instance produced by one row: its kind, its name (the cell
value) and the attribute values attached to it from that row. -/
structure RowNode where
  kind : NodeKind
  name : String
  attrs : List Attr
deriving DecidableEq, Repr

/-! ## Graph builder (spec section 4.3)

Modelled from the spec: the graph builder of altamisa.isatab is not in the
snapshot.  For each row it creates a node for each node-producing column with
a non-empty cell (an empty cell is skipped and produces no node), attaches
attribute values to the nearest preceding node of the row, emits an arc
between each consecutive pair of produced nodes, and merges a re-encountered
node name onto the existing node (the first occurrence supplies the record).
-/

/-- Walk the (column, cell) pairs of one row, carrying the most recently
produced node; attribute cells attach to it, node cells emit it and start a
new one.  An attribute cell with no preceding node is dropped. -/
def rowNodesAux : List (ColType × String) → Option RowNode → List RowNode
  | [], cur => cur.toList
  | (ColType.matCol k, cell) :: rest, cur =>
      if cell = "" then rowNodesAux rest cur
      else cur.toList ++ rowNodesAux rest (some ⟨NodeKind.mat k, cell, []⟩)
  | (ColType.procCol nt, cell) :: rest, cur =>
      if cell = "" then rowNodesAux rest cur
      else cur.toList ++ rowNodesAux rest (some ⟨NodeKind.proc nt, cell, []⟩)
  | (ColType.attrCol q, cell) :: rest, cur =>
      rowNodesAux rest (cur.map (fun n => { n with attrs := n.attrs ++ [⟨q, cell⟩] }))

/-- The ordered node instances one row produces against a schema. -/
def rowNodes (schema : List ColType) (r : List String) : List RowNode :=
  rowNodesAux (schema.zip r) none

/-- The arcs one row contributes: one per consecutive pair of produced nodes,
in left-to-right column order (spec section 4.3). -/
def rowArcs (ns : List RowNode) : List Arc :=
  List.zipWith (fun a b => Arc.mk a.name b.name) ns ns.tail

/-- Insert one node instance: a fresh name is appended to the corresponding
mapping, an existing name is left unchanged (first occurrence wins). -/
def insertNode (g : Graph) (n : RowNode) : Graph :=
  match n.kind with
  | NodeKind.mat k =>
      match alookup n.name g.materials with
      | some _ => g
      | none => { g with materials := g.materials ++ [(n.name, ⟨n.name, k, n.attrs⟩)] }
  | NodeKind.proc nt =>
      match alookup n.name g.processes with
      | some _ => g
      | none => { g with processes := g.processes ++ [(n.name, ⟨n.name, nt, n.attrs⟩)] }

/-- Insert a list of node instances in order. -/
def insertNodes : Graph → List RowNode → Graph
  | g, [] => g
  | g, n :: ns => insertNodes (insertNode g n) ns

/-- Insert arcs in order, skipping arcs already present. -/
def insertArcs : Graph → List Arc → Graph
  | g, [] => g
  | g, a :: rest =>
      insertArcs (if a ∈ g.arcs then g else { g with arcs := g.arcs ++ [a] }) rest

/-- Consume one row: create or fetch its nodes, then add its arcs. -/
def addRow (schema : List ColType) (g : Graph) (r : List String) : Graph :=
  let ns := rowNodes schema r
  insertArcs (insertNodes g ns) (rowArcs ns)

/-- Fold the rows of a sheet into a graph, starting from `g`. -/
def buildAux (schema : List ColType) : Graph → List (List String) → Graph
  | g, [] => g
  | g, r :: rs => buildAux schema (addRow schema g r) rs

/-- The empty graph. -/
def emptyGraph : Graph := ⟨[], [], []⟩

/-- Build the graph of one sheet from its resolved schema and data rows
(spec section 4.3). -/
def buildGraph (schema : List ColType) (rows : List (List String)) : Graph :=
  buildAux schema emptyGraph rows

/-! ## Writer (spec section 4.6)

Modelled from the spec: the writer of altamisa.isatab is not in the snapshot.
It re-derives the column order from the schema that produced the Graph, emits
one header line and one row per distinct traversal path implied by the arc
sequence, and applies the configured quoting uniformly to every cell.
-/

/-- The qualifiers of the leading attribute columns of a column list, up to
the first node-producing column. -/
def leadingQuals : List ColType → List String
  | ColType.attrCol q :: rest => q :: leadingQuals rest
  | _ => []

/-- The node-producing columns of a schema in order, each with the qualifiers
of the attribute columns it owns (the attribute columns that follow it before
the next node-producing column). -/
def nodeGroups : List ColType → List (NodeKind × List String)
  | [] => []
  | ColType.attrCol _ :: rest => nodeGroups rest
  | ColType.matCol k :: rest => (NodeKind.mat k, leadingQuals rest) :: nodeGroups rest
  | ColType.procCol nt :: rest => (NodeKind.proc nt, leadingQuals rest) :: nodeGroups rest

/-- Render one row from an ordered node-instance list: node columns emit the
next node's name, attribute columns emit the pending attribute values of the
node just emitted, and columns with nothing to emit are written empty. -/
def renderAux : List ColType → List RowNode → List Attr → List String
  | [], _, _ => []
  | ColType.attrCol _ :: rest, ns, a :: pending => a.value :: renderAux rest ns pending
  | ColType.attrCol _ :: rest, ns, [] => "" :: renderAux rest ns []
  | ColType.matCol _ :: rest, n :: ns, _ => n.name :: renderAux rest ns n.attrs
  | ColType.matCol _ :: rest, [], _ => "" :: renderAux rest [] []
  | ColType.procCol _ :: rest, n :: ns, _ => n.name :: renderAux rest ns n.attrs
  | ColType.procCol _ :: rest, [], _ => "" :: renderAux rest [] []

/-- Render one full row against the schema from its node-instance list. -/
def renderRow (schema : List ColType) (ns : List RowNode) : List String :=
  renderAux schema ns []

/-- The node names of a graph: Material keys then Process keys. -/
def nodeNames (g : Graph) : List String :=
  g.materials.map (fun e => e.1) ++ g.processes.map (fun e => e.1)

/-- Whether the graph has an arc into `n`. -/
def hasIncoming (g : Graph) (n : String) : Bool :=
  g.arcs.any (fun a => a.head == n)

/-- The start nodes of the traversal: nodes with no incoming arc. -/
def startNodes (g : Graph) : List String :=
  (nodeNames g).filter (fun n => !(hasIncoming g n))

/-- Extend one reversed path by every arc leaving its last node. -/
def extendPath (g : Graph) (p : List String) : List (List String) :=
  match p with
  | [] => []
  | lastN :: _ => (g.arcs.filter (fun a => a.tail == lastN)).map (fun a => a.head :: p)

/-- Extend every reversed path in a list. -/
def extendAll (g : Graph) (ps : List (List String)) : List (List String) :=
  ps.flatMap (extendPath g)

/-- All reversed traversal paths of `j + 1` nodes starting at a start node. -/
def pathsUpto (g : Graph) : Nat → List (List String)
  | 0 => (startNodes g).map (fun n => [n])
  | j + 1 => extendAll g (pathsUpto g j)

/-- All traversal paths implied by the arc sequence, one node per
node-producing column of the schema. -/
def enumPaths (schema : List ColType) (g : Graph) : List (List String) :=
  match (nodeGroups schema).length with
  | 0 => []
  | j + 1 => (pathsUpto g j).map List.reverse

/-- The attribute values the graph stores for node `n` of kind `kd`. -/
def attrsFor (g : Graph) (kd : NodeKind) (n : String) : List Attr :=
  match kd with
  | NodeKind.mat _ =>
      match alookup n g.materials with
      | some m => m.attrs
      | none => []
  | NodeKind.proc _ =>
      match alookup n g.processes with
      | some p => p.attrs
      | none => []

/-- The node-instance list of one traversal path: the path's names aligned
with the node-producing columns, attributes copied from the graph. -/
def pathInsts (g : Graph) (groups : List (NodeKind × List String)) (p : List String) :
    List RowNode :=
  List.zipWith (fun gr n => RowNode.mk gr.1 n (attrsFor g gr.1 n)) groups p

/-- The data rows the writer emits for a graph: one per traversal path. -/
def writeRows (schema : List ColType) (g : Graph) : List (List String) :=
  (enumPaths schema g).map (fun p => renderRow schema (pathInsts g (nodeGroups schema) p))

/-- The display label of a material kind, as it appears in the header. -/
def matKindLabel : MatKind → String
  | MatKind.source => "Source Name"
  | MatKind.sample => "Sample Name"
  | MatKind.extract => "Extract Name"
  | MatKind.labeledExtract => "Labeled Extract Name"
  | MatKind.dataFile => "Raw Data File"

/-- The header label of a column descriptor (spec section 6). -/
def colLabel : ColType → String
  | ColType.matCol k => matKindLabel k
  | ColType.procCol none => "Protocol REF"
  | ColType.procCol (some nt) => nt
  | ColType.attrCol q => q

/-- The header row the writer emits. -/
def headerRow (schema : List ColType) : List String := schema.map colLabel

/-! ## Sheet tokenizer and quoting (spec section 4.1)

Modelled from the spec: the tokenizer of altamisa.isatab is not in the
snapshot.  A line is a character sequence; cells are separated by tab
characters; an optional uniform quote character wraps every cell.
-/

/-- Join cells into one line, separating them by tab characters. -/
def joinCellsL : List (List Char) → List Char
  | [] => []
  | [c] => c
  | c :: rest => c ++ '\t' :: joinCellsL rest

/-- Split one line into cells at tab characters. -/
def splitCellsL (l : List Char) : List (List Char) :=
  l.foldr
    (fun c acc =>
      if c = '\t' then [] :: acc
      else
        match acc with
        | [] => [[c]]
        | x :: xs => (c :: x) :: xs)
    [[]]

/-- Wrap a cell in the configured quote character, if any. -/
def quoteL (q : Option Char) (l : List Char) : List Char :=
  match q with
  | none => l
  | some qc => qc :: l ++ [qc]

/-- Strip the configured quote character from a cell, if it wraps the cell. -/
def unquoteL : Option Char → List Char → List Char
  | none, l => l
  | some _, [] => []
  | some qc, c :: rest =>
      if c = qc ∧ rest.getLast? = some qc then rest.dropLast else c :: rest

/-- Encode one row of cells as one line under the quoting policy. -/
def encodeRow (q : Option Char) (r : List String) : List Char :=
  joinCellsL (r.map (fun s => quoteL q s.data))

/-- Tokenize one line into cells under the quoting policy. -/
def tokenizeLine (q : Option Char) (l : List Char) : List String :=
  (splitCellsL l).map (fun c => String.mk (unquoteL q c))

/-- The full output of the writer: one header line, then one line per
traversal path, with the quoting policy applied uniformly to every cell. -/
def writeSheetLines (q : Option Char) (schema : List ColType) (g : Graph) :
    List (List Char) :=
  encodeRow q (headerRow schema) :: (writeRows schema g).map (encodeRow q)

/-- Whether a node name resolves to a key of the Material or Process mapping. -/
def resolvesB (g : Graph) (n : String) : Bool :=
  (alookup n g.materials).isSome || (alookup n g.processes).isSome

/-- Modelled from the spec: write_sheet fails with a structural-failure kind
if the Graph contains a dangling Arc endpoint (spec section 6); otherwise it
emits the serialized sheet. -/
def writeSheet (q : Option Char) (schema : List ColType) (g : Graph) :
    Except String (List (List Char)) :=
  if g.arcs.all (fun a => resolvesB g a.tail && resolvesB g a.head) then
    Except.ok (writeSheetLines q schema g)
  else
    Except.error "structural failure: dangling arc endpoint"

/-! ## Warnings and the validator (spec sections 4.5 and 7)

Modelled from the spec: the validator of altamisa.isatab is not in the
snapshot.  Every detected issue becomes exactly one severity-tagged warning
appended to the ordered result list; the validator never raises.
-/

/-- Severity tiers of semantic warnings (spec section 3). -/
inductive Severity where
  | parse
  | advisory
  | moderate
  | critical
deriving DecidableEq, Repr

/-- One warning record: message text and severity tier (spec section 3). -/
structure Warning where
  severity : Severity
  message : String
deriving DecidableEq, Repr

/-- A protocol declaration visible to the validator: name and protocol type
(spec section 3, StudyInfo). -/
structure ProtocolDecl where
  name : String
  protocolType : String
deriving DecidableEq, Repr

/-- Study-level information: identifier, file path and the protocol
declarations in scope (spec section 3). -/
structure StudyInfo where
  identifier : String
  path : String
  protocols : List (String × ProtocolDecl)
deriving DecidableEq, Repr

/-- Assay-level information used by the presence checks: path, measurement
type, technology type and platform. -/
structure AssayInfo where
  path : String
  measurementType : String
  technologyType : String
  platform : String
deriving DecidableEq, Repr

/-- Modelled from the spec: the protocol type that supports a given
process-name-type qualifier, used by the declared-protocol-type check
(spec sections 4.5c and 8: "Normalization Name" is supported only by protocol
type "data normalization"). -/
def requiredProtocolType : String → Option String
  | "Normalization Name" => some "data normalization"
  | "Data Transformation Name" => some "data transformation"
  | _ => none

/-- The message of the undeclared-protocol check (spec section 8). -/
def undeclaredProtocolMsg (ref nt : String) : String :=
  "Can't validate parameter values and names for process with undeclared protocol \""
    ++ ref ++ "\" and name type \"" ++ nt ++ "\""

/-- The message of the declared-protocol-type check (spec sections 4.5c and 8). -/
def unsupportedQualMsg (nt ptype req : String) : String :=
  "\"" ++ nt ++ "\" not supported by protocol type \"" ++ ptype
    ++ "\" (only \"" ++ req ++ "\")"

/-- Protocol-conformance check of one process (spec section 4.5b and 4.5c): a
process carrying a name-type column under an undeclared or "Unknown" protocol
yields one Moderate warning naming the name type; a name-type qualifier not
supported by the declared protocol type yields one Moderate warning naming the
qualifier and the accepted alternative. -/
def checkProcess (protocols : List (String × ProtocolDecl)) (p : Process) :
    List Warning :=
  match p.nameType with
  | none => []
  | some nt =>
      let ref := protocolRefOf p
      match alookup ref protocols with
      | none => [⟨Severity.moderate, undeclaredProtocolMsg ref nt⟩]
      | some decl =>
          match requiredProtocolType nt with
          | some req =>
              if decl.protocolType = req then []
              else [⟨Severity.moderate, unsupportedQualMsg nt decl.protocolType req⟩]
          | none => []

/-- The message of the missing-platform presence check (spec section 8). -/
def platformMsg (ai : AssayInfo) : String :=
  "Assay without platform:" ++ "\nPath:\t" ++ ai.path
    ++ "\nMeasurement Type:\t" ++ ai.measurementType
    ++ "\nTechnology Type:\t" ++ ai.technologyType
    ++ "\nTechnology Platform:\t" ++ ai.platform

/-- Presence check of the assay platform (spec section 4.5a): a missing
platform value yields one Advisory warning with the literal templated
message. -/
def checkPlatform (ai : AssayInfo) : List Warning :=
  if ai.platform = "" then [⟨Severity.advisory, platformMsg ai⟩] else []

/-- Walk the process mapping in order, handing each process back unchanged
and collecting the warnings of its checks in discovery order. -/
def walkProcesses (protocols : List (String × ProtocolDecl)) :
    List (String × Process) → List (String × Process) × List Warning
  | [] => ([], [])
  | (n, p) :: rest =>
      let r := walkProcesses protocols rest
      ((n, p) :: r.1, checkProcess protocols p ++ r.2)

/-- Modelled from the spec: validate one assay graph against its resolution
context, returning the walked graph and the ordered warning list; the
validator applies its checks in a fixed deterministic order and never raises
(spec section 4.5). -/
def validateAssay (si : StudyInfo) (ai : AssayInfo) (g : Graph) :
    Graph × List Warning :=
  let walked := walkProcesses si.protocols g.processes
  ({ g with processes := walked.1 }, checkPlatform ai ++ walked.2)

/-! ## Investigation ontology sources (spec section 4.3 and 8) -/

/-- One ontology-source block of the investigation file: name, file, version
and description fields. -/
structure OntologyBlock where
  name : String
  file : String
  version : String
  description : String
deriving DecidableEq, Repr

/-- Whether every field of an ontology-source block is empty. -/
def allEmptyB (b : OntologyBlock) : Bool :=
  b.name == "" && b.file == "" && b.version == "" && b.description == ""

/-- The parse-warning message emitted for a skipped ontology-source block. -/
def skipOntologyMsg (b : OntologyBlock) : String :=
  "Skipping empty ontology source: "
    ++ String.intercalate ", " [b.name, b.file, b.version, b.description]

/-- Modelled from the spec: read the ontology-source declarations of an
investigation; a block whose fields are all empty is skipped with one
Parse-severity warning and contributes no entry (spec section 8). -/
def readOntologySources : List OntologyBlock → List OntologyBlock × List Warning
  | [] => ([], [])
  | b :: rest =>
      let r := readOntologySources rest
      if allEmptyB b then (r.1, ⟨Severity.parse, skipOntologyMsg b⟩ :: r.2)
      else (b :: r.1, r.2)

/-! ## The assay pipeline (spec sections 2, 6 and 7)

Modelled from the spec: reading, validating and writing one assay sheet.
Structural failures (row length mismatch against the header) are fatal to the
file and reported as a typed failure; semantic warnings are always non-fatal
and collected, Parse warnings first, then validation warnings.
-/

/-- The structural check of the tokenizer: every row's length matches the
header length (spec section 4.1). -/
def structuralOkB (schema : List ColType) (rows : List (List String)) : Bool :=
  rows.all (fun r => r.length == schema.length)

/-- Modelled from the spec: process one assay sheet end to end.  On a
structural failure the file's processing aborts with a typed failure; on
success the caller receives the built graph, the ordered warning collection
(Parse warnings of the investigation first, then validation warnings) and the
written output, no matter how many warnings accumulated. -/
def processAssay (blocks : List OntologyBlock) (si : StudyInfo) (ai : AssayInfo)
    (q : Option Char) (schema : List ColType) (rows : List (List String)) :
    Except String (Graph × List Warning × List (List Char)) :=
  if structuralOkB schema rows then
    let g := buildGraph schema rows
    let v := validateAssay si ai g
    Except.ok (v.1, (readOntologySources blocks).2 ++ v.2, writeSheetLines q schema v.1)
  else
    Except.error "structural failure: row length mismatch"

/-! ## The dot exporter (altamisa/apps/isatab2dot.py)

Translated from the source: print_dot emits the materials section, the
processes section and the arcs section of one graph, one line per entity,
using json.dumps to quote names and labels.
-/

/-- Four-digit lowercase hexadecimal rendering of a code unit. -/
def hex4 (n : Nat) : String :=
  let digit := fun (d : Nat) =>
    if d < 10 then Char.ofNat (48 + d) else Char.ofNat (87 + d)
  String.mk [digit (n / 4096 % 16), digit (n / 256 % 16), digit (n / 16 % 16), digit (n % 16)]

/-- The escape sequence json.dumps produces for one character with
ensure_ascii, including surrogate pairs for astral code points. -/
def jsonEscapeChar (c : Char) : List Char :=
  if c = '"' then ['\\', '"']
  else if c = '\\' then ['\\', '\\']
  else if c = '\n' then ['\\', 'n']
  else if c = '\r' then ['\\', 'r']
  else if c = '\t' then ['\\', 't']
  else if c.toNat = 8 then ['\\', 'b']
  else if c.toNat = 12 then ['\\', 'f']
  else if c.toNat < 32 then '\\' :: 'u' :: (hex4 c.toNat).data
  else if c.toNat < 127 then [c]
  else if c.toNat < 65536 then '\\' :: 'u' :: (hex4 c.toNat).data
  else
    let u := c.toNat - 65536
    ('\\' :: 'u' :: (hex4 (55296 + u / 1024)).data)
      ++ ('\\' :: 'u' :: (hex4 (56320 + u % 1024)).data)

/-- Python json.dumps of a string with its default options. -/
def jsonDumps (s : String) : String :=
  String.mk ('"' :: s.data.flatMap jsonEscapeChar ++ ['"'])

/-- The display type of a material, as the source's mat.type attribute. -/
def matType (m : Material) : String := matKindLabel m.kind

/-- Translated from print_dot: the label line of one material entry. -/
def dotMaterialLine (indent matShape matColor : String)
    (entry : String × Material) : String :=
  let label := jsonDumps (matType entry.2 ++ ":\n"
    ++ (if entry.2.name ≠ "" then entry.2.name else "-") ++ "\n(" ++ entry.1 ++ ")")
  indent ++ jsonDumps entry.1 ++ " [label=" ++ label ++ ",shape=" ++ matShape
    ++ ",color=" ++ matColor ++ ",fontcolor=" ++ matColor ++ "]"

/-- Translated from print_dot: the label line of one process entry. -/
def dotProcessLine (indent procShape procColor : String)
    (entry : String × Process) : String :=
  let label := jsonDumps ("Process" ++ ":\n"
    ++ (if rawProtocolRef entry.2 ≠ "" then rawProtocolRef entry.2 else "-") ++ "\n"
    ++ (if entry.2.name ≠ "" then entry.2.name else "-") ++ "\n(" ++ entry.1 ++ ")")
  indent ++ jsonDumps entry.1 ++ " [label=" ++ label ++ ",shape=" ++ procShape
    ++ ",color=" ++ procColor ++ ",fontcolor=" ++ procColor ++ "]"

/-- Translated from print_dot: the line of one arc. -/
def dotArcLine (indent : String) (a : Arc) : String :=
  indent ++ jsonDumps a.tail ++ " -> " ++ jsonDumps a.head ++ ";"

/-- Translated from the source function print_dot of isatab2dot.py: emit the
materials section, the processes section and the arcs section of one graph,
in that order, one line per section comment and one line per entity. -/
def print_dot (obj : Graph) (indent matShape matColor procShape procColor : String) :
    List String :=
  (indent ++ "/* materials */")
    :: obj.materials.map (dotMaterialLine indent matShape matColor)
    ++ (indent ++ "/* processes */")
    :: obj.processes.map (dotProcessLine indent procShape procColor)
    ++ (indent ++ "/* arcs */")
    :: obj.arcs.map (dotArcLine indent)

/-! ## Graph isomorphism (spec sections 4.6 and 8)

Two graphs are isomorphic in the sense of the round-trip property when they
have the same Material mapping, the same Process mapping (same node sets with
the same attribute values) and the same Arc set, each up to order.
-/

/-- Same Material mapping, same Process mapping and same Arc set, up to
order. -/
def GraphIso (g₁ g₂ : Graph) : Prop :=
  (∀ n, alookup n g₁.materials = alookup n g₂.materials)
    ∧ (∀ n, alookup n g₁.processes = alookup n g₂.processes)
    ∧ (∀ a : Arc, a ∈ g₁.arcs ↔ a ∈ g₂.arcs)

/-- Equality of line collections up to order (line-set equality). -/
def lineSetEq (l₁ l₂ : List (List Char)) : Prop :=
  ∀ l, l ∈ l₁ ↔ l ∈ l₂

/-- Success test for a typed failure result. -/
def isOkB : Except ε α → Bool
  | Except.ok _ => true
  | Except.error _ => false

/-! ## Basic lemmas on lookups and the validator walk -/

theorem alookup_append (n : String) (l₁ l₂ : List (String × α)) :
    alookup n (l₁ ++ l₂)
      = match alookup n l₁ with
        | some v => some v
        | none => alookup n l₂ := by
  induction l₁ with
  | nil => simp [alookup]
  | cons e rest ih =>
      cases e with
      | mk k v =>
          by_cases h : k = n <;> simp [alookup, h, ih]

theorem alookup_eq_none_iff (n : String) (l : List (String × α)) :
    alookup n l = none ↔ n ∉ l.map Prod.fst := by
  induction l with
  | nil => simp [alookup]
  | cons e rest ih =>
      cases e with
      | mk k v =>
          by_cases h : k = n
          · subst h
            simp [alookup]
          · simp only [alookup, h, if_false, ih, List.map_cons, List.mem_cons]
            constructor
            · intro hn hor
              rcases hor with h1 | h1
              · exact h h1.symm
              · exact hn h1
            · intro hn h1
              exact hn (Or.inr h1)

theorem walkProcesses_fst (protocols : List (String × ProtocolDecl)) :
    ∀ l : List (String × Process), (walkProcesses protocols l).1 = l := by
  intro l
  induction l with
  | nil => rfl
  | cons e rest ih => simp [walkProcesses, ih]

theorem mem_walkProcesses_of_mem (protocols : List (String × ProtocolDecl))
    (nm : String) (p : Process) (w : Warning) (hw : w ∈ checkProcess protocols p) :
    ∀ l : List (String × Process), (nm, p) ∈ l → w ∈ (walkProcesses protocols l).2 := by
  intro l
  induction l with
  | nil => intro h; cases h
  | cons e rest ih =>
      intro hmem
      rcases List.mem_cons.mp hmem with h | h
      · simp only [walkProcesses, List.mem_append]
        exact Or.inl (by rw [← h]; exact hw)
      · simp only [walkProcesses, List.mem_append]
        exact Or.inr (ih h)

theorem checkProcess_moderate (protocols : List (String × ProtocolDecl))
    (p : Process) (w : Warning) (hw : w ∈ checkProcess protocols p) :
    w.severity = Severity.moderate := by
  unfold checkProcess at hw
  cases hnt : p.nameType with
  | none => rw [hnt] at hw; cases hw
  | some nt =>
      rw [hnt] at hw
      simp only at hw
      cases hl : alookup (protocolRefOf p) protocols with
      | none =>
          rw [hl] at hw
          rw [List.mem_singleton] at hw
          subst hw
          rfl
      | some decl =>
          rw [hl] at hw
          cases hreq : requiredProtocolType nt with
          | none => rw [hreq] at hw; cases hw
          | some req =>
              rw [hreq] at hw
              by_cases he : decl.protocolType = req
              · simp [he] at hw
              · simp only [he, if_false] at hw
                rw [List.mem_singleton] at hw
                subst hw
                rfl

theorem walkProcesses_moderate (protocols : List (String × ProtocolDecl))
    (l : List (String × Process)) (w : Warning)
    (hw : w ∈ (walkProcesses protocols l).2) : w.severity = Severity.moderate := by
  induction l with
  | nil => cases hw
  | cons e rest ih =>
      simp only [walkProcesses, List.mem_append] at hw
      rcases hw with h | h
      · exact checkProcess_moderate protocols e.2 w h
      · exact ih h

/-- Claim C5: validation is a pure, deterministic function: validating the
same context and graph twice yields identical results (in particular identical
ordered warning lists), and the validator hands the graph back unchanged. -/
theorem c5_validation_pure (si : StudyInfo) (ai : AssayInfo) (g : Graph) :
    (validateAssay si ai g).1 = g
      ∧ ∀ out₁ out₂, validateAssay si ai g = out₁ → validateAssay si ai g = out₂ →
          out₁ = out₂ := by
  constructor
  · show { g with processes := (walkProcesses si.protocols g.processes).1 } = g
    rw [walkProcesses_fst]
  · intro out₁ out₂ h₁ h₂
    rw [← h₁, ← h₂]

theorem c5_validation_pure_witness :
    (validateAssay ⟨"S1", "s_x.txt", []⟩ ⟨"a_x.txt", "m", "t", "pl"⟩ emptyGraph).1
      = emptyGraph := by
  exact (c5_validation_pure ⟨"S1", "s_x.txt", []⟩ ⟨"a_x.txt", "m", "t", "pl"⟩
    emptyGraph).1

theorem string_append_empty (s : String) : s ++ "" = s := by
  cases s with
  | mk d =>
      show String.mk (d ++ []) = String.mk d
      rw [List.append_nil]

/-- Claim C6: a Process whose protocol reference is absent or "Unknown" and
that carries a process-name-type column yields exactly one Moderate warning
naming that name type, present in the validator's output; for the name type
"Scan Name" the message is exactly the literal of the test suite. -/
theorem c6_undeclared_protocol_warning (si : StudyInfo) (ai : AssayInfo)
    (g : Graph) (nm : String) (p : Process) (nt : String)
    (hmem : (nm, p) ∈ g.processes)
    (hnt : p.nameType = some nt) (href : protocolRefOf p = "Unknown")
    (hundecl : alookup "Unknown" si.protocols = none) :
    checkProcess si.protocols p
        = [⟨Severity.moderate, undeclaredProtocolMsg "Unknown" nt⟩]
      ∧ Warning.mk Severity.moderate (undeclaredProtocolMsg "Unknown" nt)
          ∈ (validateAssay si ai g).2
      ∧ undeclaredProtocolMsg "Unknown" "Scan Name"
          = "Can't validate parameter values and names for process with undeclared protocol \"Unknown\" and name type \"Scan Name\"" := by
  have hchk : checkProcess si.protocols p
      = [⟨Severity.moderate, undeclaredProtocolMsg "Unknown" nt⟩] := by
    unfold checkProcess
    rw [hnt]
    simp only [href, hundecl]
  refine ⟨hchk, ?_, by rfl⟩
  show _ ∈ checkPlatform ai ++ (walkProcesses si.protocols g.processes).2
  refine List.mem_append.mpr (Or.inr ?_)
  exact mem_walkProcesses_of_mem si.protocols nm p _
    (by rw [hchk]; exact List.mem_singleton.mpr rfl) g.processes hmem

theorem c6_undeclared_protocol_warning_witness :
    protocolRefOf ⟨"scan1", some "Scan Name", []⟩ = "Unknown"
      ∧ checkProcess [] ⟨"scan1", some "Scan Name", []⟩
          = [⟨Severity.moderate, undeclaredProtocolMsg "Unknown" "Scan Name"⟩] :=
  ⟨by decide,
   (c6_undeclared_protocol_warning ⟨"S1", "s_small.txt", []⟩
      ⟨"a_small.txt", "m", "t", "pl"⟩
      ⟨[], [("scan1", ⟨"scan1", some "Scan Name", []⟩)], []⟩ "scan1"
      ⟨"scan1", some "Scan Name", []⟩ "Scan Name"
      (by decide) rfl (by decide) rfl).1⟩

/-- Claim C7: an assay lacking a declared platform value yields exactly one
Advisory warning, whose message is exactly the literal template with the
path, measurement type, technology type and an empty platform value, each
label and value separated by a tab. -/
theorem c7_missing_platform_advisory (si : StudyInfo) (ai : AssayInfo) (g : Graph)
    (h : ai.platform = "") :
    (validateAssay si ai g).2.filter (fun w => w.severity == Severity.advisory)
        = [⟨Severity.advisory, platformMsg ai⟩]
      ∧ platformMsg ai
          = "Assay without platform:\nPath:\t" ++ ai.path
            ++ "\nMeasurement Type:\t" ++ ai.measurementType
            ++ "\nTechnology Type:\t" ++ ai.technologyType
            ++ "\nTechnology Platform:\t" := by
  constructor
  · show (checkPlatform ai ++ (walkProcesses si.protocols g.processes).2).filter _
        = _
    rw [List.filter_append]
    have h1 : checkPlatform ai = [⟨Severity.advisory, platformMsg ai⟩] := by
      simp [checkPlatform, h]
    have h2 : (walkProcesses si.protocols g.processes).2.filter
        (fun w => w.severity == Severity.advisory) = [] := by
      rw [List.filter_eq_nil_iff]
      intro w hw
      rw [walkProcesses_moderate si.protocols g.processes w hw]
      decide
    rw [h1, h2, List.append_nil]
    rfl
  · unfold platformMsg
    rw [h, string_append_empty]
    simp [String.append_assoc]

theorem c7_missing_platform_advisory_witness :
    (validateAssay ⟨"S1", "s_small.txt", []⟩
        ⟨"a_small.txt", "exome sequencing assay", "nucleotide sequencing", ""⟩
        emptyGraph).2.filter (fun w => w.severity == Severity.advisory)
      = [⟨Severity.advisory,
          platformMsg ⟨"a_small.txt", "exome sequencing assay", "nucleotide sequencing", ""⟩⟩] :=
  (c7_missing_platform_advisory ⟨"S1", "s_small.txt", []⟩
    ⟨"a_small.txt", "exome sequencing assay", "nucleotide sequencing", ""⟩
    emptyGraph rfl).1

/-- Claim C8: an attribute qualifier "Normalization Name" used under a
declared protocol of type "normalization" (which supports only "data
normalization") yields exactly one Moderate warning naming both the offending
qualifier and the accepted alternative, with the exact message of the test
suite. -/
theorem c8_unsupported_qualifier (si : StudyInfo) (ai : AssayInfo) (g : Graph)
    (nm : String) (p : Process) (decl : ProtocolDecl)
    (hmem : (nm, p) ∈ g.processes)
    (hnt : p.nameType = some "Normalization Name")
    (hlook : alookup (protocolRefOf p) si.protocols = some decl)
    (htype : decl.protocolType = "normalization") :
    checkProcess si.protocols p
        = [⟨Severity.moderate,
            unsupportedQualMsg "Normalization Name" "normalization" "data normalization"⟩]
      ∧ Warning.mk Severity.moderate
            (unsupportedQualMsg "Normalization Name" "normalization" "data normalization")
          ∈ (validateAssay si ai g).2
      ∧ unsupportedQualMsg "Normalization Name" "normalization" "data normalization"
          = "\"Normalization Name\" not supported by protocol type \"normalization\" (only \"data normalization\")" := by
  have hchk : checkProcess si.protocols p
      = [⟨Severity.moderate,
          unsupportedQualMsg "Normalization Name" "normalization" "data normalization"⟩] := by
    unfold checkProcess
    rw [hnt]
    simp only [hlook]
    have hreq : requiredProtocolType "Normalization Name" = some "data normalization" := rfl
    rw [hreq]
    have hne : decl.protocolType ≠ "data normalization" := by
      rw [htype]; decide
    simp only [hne, if_false, htype]
    rw [if_neg (by decide : ¬("normalization" = "data normalization"))]
  refine ⟨hchk, ?_, by rfl⟩
  show _ ∈ checkPlatform ai ++ (walkProcesses si.protocols g.processes).2
  refine List.mem_append.mpr (Or.inr ?_)
  exact mem_walkProcesses_of_mem si.protocols nm p _
    (by rw [hchk]; exact List.mem_singleton.mpr rfl) g.processes hmem

theorem c8_unsupported_qualifier_witness :
    alookup (protocolRefOf ⟨"n1", some "Normalization Name", [⟨"Protocol REF", "norm"⟩]⟩)
        [("norm", ProtocolDecl.mk "norm" "normalization")]
      = some (ProtocolDecl.mk "norm" "normalization")
    ∧ checkProcess [("norm", ProtocolDecl.mk "norm" "normalization")]
          ⟨"n1", some "Normalization Name", [⟨"Protocol REF", "norm"⟩]⟩
        = [⟨Severity.moderate,
            unsupportedQualMsg "Normalization Name" "normalization" "data normalization"⟩] :=
  ⟨by decide,
   (c8_unsupported_qualifier
      ⟨"S1", "s_study01.txt", [("norm", ProtocolDecl.mk "norm" "normalization")]⟩
      ⟨"a_x.txt", "m", "t", "pl"⟩
      ⟨[], [("n1", ⟨"n1", some "Normalization Name", [⟨"Protocol REF", "norm"⟩]⟩)], []⟩
      "n1" ⟨"n1", some "Normalization Name", [⟨"Protocol REF", "norm"⟩]⟩
      (ProtocolDecl.mk "norm" "normalization")
      (by decide) rfl (by decide) rfl).1⟩

/-- Claim C9: an ontology-source block whose fields are all empty is skipped,
not treated as a structural failure: it yields exactly one Parse-severity
warning with the exact literal message, contributes no ontology-source entry,
and the Parse warning is placed before the validation warnings in the
pipeline's warning collection. -/
theorem c9_empty_ontology_source_skip (b : OntologyBlock) (blocks : List OntologyBlock)
    (si : StudyInfo) (ai : AssayInfo) (q : Option Char) (schema : List ColType)
    (rows : List (List String)) (hb : allEmptyB b = true) :
    skipOntologyMsg b = "Skipping empty ontology source: , , , "
      ∧ readOntologySources (b :: blocks)
          = ((readOntologySources blocks).1,
             Warning.mk Severity.parse (skipOntologyMsg b)
               :: (readOntologySources blocks).2)
      ∧ (structuralOkB schema rows = true →
          processAssay (b :: blocks) si ai q schema rows
            = Except.ok
                ((validateAssay si ai (buildGraph schema rows)).1,
                 (readOntologySources (b :: blocks)).2
                   ++ (validateAssay si ai (buildGraph schema rows)).2,
                 writeSheetLines q schema
                   (validateAssay si ai (buildGraph schema rows)).1)) := by
  have hfields : b.name = "" ∧ b.file = "" ∧ b.version = "" ∧ b.description = "" := by
    cases b with
    | mk n f v d =>
        simp only [allEmptyB, Bool.and_eq_true, beq_iff_eq] at hb
        exact ⟨hb.1.1.1, hb.1.1.2, hb.1.2, hb.2⟩
  refine ⟨?_, ?_, ?_⟩
  · cases b with
    | mk n f v d =>
        obtain ⟨h1, h2, h3, h4⟩ := hfields
        simp only at h1 h2 h3 h4
        subst h1; subst h2; subst h3; subst h4
        rfl
  · simp [readOntologySources, hb]
  · intro hs
    simp only [processAssay, hs, if_true]

theorem c9_empty_ontology_source_skip_witness :
    allEmptyB ⟨"", "", "", ""⟩ = true
      ∧ skipOntologyMsg ⟨"", "", "", ""⟩ = "Skipping empty ontology source: , , , " :=
  ⟨by decide,
   (c9_empty_ontology_source_skip ⟨"", "", "", ""⟩ [] ⟨"S1", "s_x.txt", []⟩
      ⟨"a_x.txt", "m", "t", "pl"⟩ none [] [] (by decide)).1⟩

/-- Claim C4: semantic warnings of every tier are non-fatal: the pipeline's
success is exactly the structural check, independent of how many warnings
accumulate, and on success the caller receives the built graph together with
the ordered warning collection and the written output. -/
theorem c4_semantic_warnings_nonfatal (blocks : List OntologyBlock) (si : StudyInfo)
    (ai : AssayInfo) (q : Option Char) (schema : List ColType)
    (rows : List (List String)) :
    isOkB (processAssay blocks si ai q schema rows) = structuralOkB schema rows
      ∧ (structuralOkB schema rows = true →
          processAssay blocks si ai q schema rows
            = Except.ok
                ((validateAssay si ai (buildGraph schema rows)).1,
                 (readOntologySources blocks).2
                   ++ (validateAssay si ai (buildGraph schema rows)).2,
                 writeSheetLines q schema
                   (validateAssay si ai (buildGraph schema rows)).1)) := by
  cases hs : structuralOkB schema rows with
  | true =>
      constructor
      · simp [processAssay, hs, isOkB]
      · intro _
        simp only [processAssay, hs, if_true]
  | false =>
      constructor
      · simp [processAssay, hs, isOkB]
      · intro hcontra
        cases hcontra

theorem c4_semantic_warnings_nonfatal_witness :
    structuralOkB [ColType.matCol MatKind.source] [["s1"]] = true
      ∧ processAssay [⟨"", "", "", ""⟩] ⟨"S1", "s_x.txt", []⟩ ⟨"a_x.txt", "m", "t", ""⟩
            none [ColType.matCol MatKind.source] [["s1"]]
          = Except.ok
              ((validateAssay ⟨"S1", "s_x.txt", []⟩ ⟨"a_x.txt", "m", "t", ""⟩
                  (buildGraph [ColType.matCol MatKind.source] [["s1"]])).1,
               (readOntologySources [⟨"", "", "", ""⟩]).2
                 ++ (validateAssay ⟨"S1", "s_x.txt", []⟩ ⟨"a_x.txt", "m", "t", ""⟩
                      (buildGraph [ColType.matCol MatKind.source] [["s1"]])).2,
               writeSheetLines none [ColType.matCol MatKind.source]
                 (validateAssay ⟨"S1", "s_x.txt", []⟩ ⟨"a_x.txt", "m", "t", ""⟩
                    (buildGraph [ColType.matCol MatKind.source] [["s1"]])).1) :=
  ⟨by decide,
   (c4_semantic_warnings_nonfatal [⟨"", "", "", ""⟩] ⟨"S1", "s_x.txt", []⟩
      ⟨"a_x.txt", "m", "t", ""⟩ none [ColType.matCol MatKind.source] [["s1"]]).2
     (by decide)⟩

/-! ## Builder invariants: referential integrity and key uniqueness -/

/-- One graph extends another: every mapping entry and every arc persists. -/
def Extends (g g' : Graph) : Prop :=
  (∀ n v, alookup n g.materials = some v → alookup n g'.materials = some v)
    ∧ (∀ n v, alookup n g.processes = some v → alookup n g'.processes = some v)
    ∧ (∀ a : Arc, a ∈ g.arcs → a ∈ g'.arcs)

theorem extends_refl (g : Graph) : Extends g g :=
  ⟨fun _ _ h => h, fun _ _ h => h, fun _ h => h⟩

theorem extends_trans {g₁ g₂ g₃ : Graph} (h₁ : Extends g₁ g₂) (h₂ : Extends g₂ g₃) :
    Extends g₁ g₃ :=
  ⟨fun n v h => h₂.1 n v (h₁.1 n v h),
   fun n v h => h₂.2.1 n v (h₁.2.1 n v h),
   fun a h => h₂.2.2 a (h₁.2.2 a h)⟩

theorem alookup_append_some (n : String) (l₁ l₂ : List (String × α)) (v : α)
    (h : alookup n l₁ = some v) : alookup n (l₁ ++ l₂) = some v := by
  rw [alookup_append, h]

theorem extends_insertNode (g : Graph) (x : RowNode) : Extends g (insertNode g x) := by
  unfold insertNode
  cases x.kind with
  | mat k =>
      cases h : alookup x.name g.materials with
      | some v => exact extends_refl g
      | none =>
          exact ⟨fun n v hv => alookup_append_some n _ _ v hv,
                 fun _ _ hv => hv, fun _ ha => ha⟩
  | proc nt =>
      cases h : alookup x.name g.processes with
      | some v => exact extends_refl g
      | none =>
          exact ⟨fun _ _ hv => hv,
                 fun n v hv => alookup_append_some n _ _ v hv, fun _ ha => ha⟩

theorem extends_insertNodes (g : Graph) (ns : List RowNode) :
    Extends g (insertNodes g ns) := by
  induction ns generalizing g with
  | nil => exact extends_refl g
  | cons x rest ih =>
      exact extends_trans (extends_insertNode g x) (ih (insertNode g x))

theorem insertArcs_materials (g : Graph) (as : List Arc) :
    (insertArcs g as).materials = g.materials := by
  induction as generalizing g with
  | nil => rfl
  | cons a rest ih =>
      show (insertArcs (if a ∈ g.arcs then g else _) rest).materials = _
      by_cases h : a ∈ g.arcs <;> simp [h, ih]

theorem insertArcs_processes (g : Graph) (as : List Arc) :
    (insertArcs g as).processes = g.processes := by
  induction as generalizing g with
  | nil => rfl
  | cons a rest ih =>
      show (insertArcs (if a ∈ g.arcs then g else _) rest).processes = _
      by_cases h : a ∈ g.arcs <;> simp [h, ih]

theorem mem_insertArcs (g : Graph) (as : List Arc) (a : Arc) :
    a ∈ (insertArcs g as).arcs ↔ a ∈ g.arcs ∨ a ∈ as := by
  induction as generalizing g with
  | nil => simp [insertArcs]
  | cons b rest ih =>
      show a ∈ (insertArcs (if b ∈ g.arcs then g else _) rest).arcs ↔ _
      by_cases h : b ∈ g.arcs
      · rw [if_pos h, ih]
        constructor
        · intro hor
          rcases hor with h1 | h1
          · exact Or.inl h1
          · exact Or.inr (List.mem_cons.mpr (Or.inr h1))
        · intro hor
          rcases hor with h1 | h1
          · exact Or.inl h1
          · rcases List.mem_cons.mp h1 with h2 | h2
            · exact Or.inl (h2 ▸ h)
            · exact Or.inr h2
      · rw [if_neg h, ih]
        simp only [List.mem_append, List.mem_singleton, List.mem_cons]
        tauto

theorem extends_insertArcs (g : Graph) (as : List Arc) : Extends g (insertArcs g as) := by
  refine ⟨?_, ?_, ?_⟩
  · intro n v h; rw [insertArcs_materials]; exact h
  · intro n v h; rw [insertArcs_processes]; exact h
  · intro a h; exact (mem_insertArcs g as a).mpr (Or.inl h)

theorem insertNodes_arcs (g : Graph) (ns : List RowNode) :
    (insertNodes g ns).arcs = g.arcs := by
  induction ns generalizing g with
  | nil => rfl
  | cons x rest ih =>
      show (insertNodes (insertNode g x) rest).arcs = _
      rw [ih]
      unfold insertNode
      cases x.kind with
      | mat k => cases alookup x.name g.materials <;> rfl
      | proc nt => cases alookup x.name g.processes <;> rfl

theorem extends_addRow (schema : List ColType) (g : Graph) (r : List String) :
    Extends g (addRow schema g r) :=
  extends_trans (extends_insertNodes g (rowNodes schema r))
    (extends_insertArcs _ (rowArcs (rowNodes schema r)))

theorem extends_buildAux (schema : List ColType) (g : Graph) (rows : List (List String)) :
    Extends g (buildAux schema g rows) := by
  induction rows generalizing g with
  | nil => exact extends_refl g
  | cons r rest ih =>
      exact extends_trans (extends_addRow schema g r) (ih (addRow schema g r))

theorem resolvesB_mono {g g' : Graph} (h : Extends g g') (n : String)
    (hr : resolvesB g n = true) : resolvesB g' n = true := by
  unfold resolvesB at hr ⊢
  rw [Bool.or_eq_true] at hr ⊢
  rcases hr with h1 | h1
  · cases hl : alookup n g.materials with
    | none => rw [hl] at h1; cases h1
    | some v => exact Or.inl (by rw [h.1 n v hl]; rfl)
  · cases hl : alookup n g.processes with
    | none => rw [hl] at h1; cases h1
    | some v =>
        refine Or.inr ?_
        rw [h.2.1 n v hl]
        rfl

theorem resolvesB_insertNode_self (g : Graph) (x : RowNode) :
    resolvesB (insertNode g x) x.name = true := by
  unfold resolvesB insertNode
  cases x.kind with
  | mat k =>
      cases h : alookup x.name g.materials with
      | some v => simp [h]
      | none =>
          have : alookup x.name (g.materials ++ [(x.name, Material.mk x.name k x.attrs)])
              = some (Material.mk x.name k x.attrs) := by
            rw [alookup_append, h]
            simp [alookup]
          simp [this]
  | proc nt =>
      cases h : alookup x.name g.processes with
      | some v => simp [h]
      | none =>
          have : alookup x.name (g.processes ++ [(x.name, Process.mk x.name nt x.attrs)])
              = some (Process.mk x.name nt x.attrs) := by
            rw [alookup_append, h]
            simp [alookup]
          simp [this]

theorem resolvesB_insertNodes (ns : List RowNode) (x : RowNode) :
    ∀ g : Graph, x ∈ ns → resolvesB (insertNodes g ns) x.name = true := by
  induction ns with
  | nil => intro g hx; cases hx
  | cons y rest ih =>
      intro g hx
      rcases List.mem_cons.mp hx with h | h
      · subst h
        exact resolvesB_mono (extends_insertNodes (insertNode g x) rest) x.name
          (resolvesB_insertNode_self g x)
      · exact ih (insertNode g y) h

theorem mem_rowArcs_names (ns : List RowNode) (a : Arc) (ha : a ∈ rowArcs ns) :
    (∃ x ∈ ns, a.tail = x.name) ∧ ∃ y ∈ ns, a.head = y.name := by
  induction ns with
  | nil => cases ha
  | cons x rest ih =>
      cases rest with
      | nil => cases ha
      | cons y rest' =>
          rcases List.mem_cons.mp ha with h | h
          · subst h
            exact ⟨⟨x, List.mem_cons_self x _, rfl⟩,
                   ⟨y, List.mem_cons.mpr (Or.inr (List.mem_cons_self y _)), rfl⟩⟩
          · obtain ⟨⟨x', hx', ht⟩, ⟨y', hy', hh⟩⟩ := ih h
            exact ⟨⟨x', List.mem_cons.mpr (Or.inr hx'), ht⟩,
                   ⟨y', List.mem_cons.mpr (Or.inr hy'), hh⟩⟩

/-- Every arc of a graph resolves to a key of its Material or Process mapping. -/
def Resolved (g : Graph) : Prop :=
  ∀ a : Arc, a ∈ g.arcs → resolvesB g a.tail = true ∧ resolvesB g a.head = true

theorem resolved_addRow (schema : List ColType) (g : Graph) (r : List String)
    (hg : Resolved g) : Resolved (addRow schema g r) := by
  intro a ha
  unfold addRow at ha ⊢
  have hmaps : resolvesB (insertArcs (insertNodes g (rowNodes schema r))
      (rowArcs (rowNodes schema r)))
      = resolvesB (insertNodes g (rowNodes schema r)) := by
    funext n
    unfold resolvesB
    rw [insertArcs_materials, insertArcs_processes]
  rw [hmaps]
  rw [mem_insertArcs] at ha
  rcases ha with h | h
  · rw [insertNodes_arcs] at h
    obtain ⟨h1, h2⟩ := hg a h
    exact ⟨resolvesB_mono (extends_insertNodes g _) a.tail h1,
           resolvesB_mono (extends_insertNodes g _) a.head h2⟩
  · obtain ⟨⟨x, hx, ht⟩, ⟨y, hy, hh⟩⟩ := mem_rowArcs_names _ a h
    rw [ht, hh]
    exact ⟨resolvesB_insertNodes _ x g hx, resolvesB_insertNodes _ y g hy⟩

theorem resolved_buildAux (schema : List ColType) (g : Graph)
    (rows : List (List String)) (hg : Resolved g) :
    Resolved (buildAux schema g rows) := by
  induction rows generalizing g with
  | nil => exact hg
  | cons r rest ih => exact ih (addRow schema g r) (resolved_addRow schema g r hg)

/-- Both node mappings of a graph have pairwise distinct keys. -/
def NodupKeys (g : Graph) : Prop :=
  (g.materials.map Prod.fst).Nodup ∧ (g.processes.map Prod.fst).Nodup

theorem nodupKeys_insertNode (g : Graph) (x : RowNode) (hg : NodupKeys g) :
    NodupKeys (insertNode g x) := by
  unfold insertNode
  cases x.kind with
  | mat k =>
      cases h : alookup x.name g.materials with
      | some v => exact hg
      | none =>
          refine ⟨?_, hg.2⟩
          have hnotin := (alookup_eq_none_iff x.name g.materials).mp h
          simp only [List.map_append, List.map_cons, List.map_nil]
          rw [List.nodup_append]
          exact ⟨hg.1, List.nodup_singleton _, by simpa using fun hmem => hnotin hmem⟩
  | proc nt =>
      cases h : alookup x.name g.processes with
      | some v => exact hg
      | none =>
          refine ⟨hg.1, ?_⟩
          have hnotin := (alookup_eq_none_iff x.name g.processes).mp h
          simp only [List.map_append, List.map_cons, List.map_nil]
          rw [List.nodup_append]
          exact ⟨hg.2, List.nodup_singleton _, by simpa using fun hmem => hnotin hmem⟩

theorem nodupKeys_insertNodes (g : Graph) (ns : List RowNode) (hg : NodupKeys g) :
    NodupKeys (insertNodes g ns) := by
  induction ns generalizing g with
  | nil => exact hg
  | cons x rest ih => exact ih (insertNode g x) (nodupKeys_insertNode g x hg)

theorem nodupKeys_insertArcs (g : Graph) (as : List Arc) (hg : NodupKeys g) :
    NodupKeys (insertArcs g as) := by
  constructor
  · rw [insertArcs_materials]; exact hg.1
  · rw [insertArcs_processes]; exact hg.2

theorem nodupKeys_buildAux (schema : List ColType) (g : Graph)
    (rows : List (List String)) (hg : NodupKeys g) :
    NodupKeys (buildAux schema g rows) := by
  induction rows generalizing g with
  | nil => exact hg
  | cons r rest ih =>
      exact ih (addRow schema g r)
        (nodupKeys_insertArcs _ _ (nodupKeys_insertNodes g _ hg))

/-- Claim C3: every Graph the builder produces has referential integrity
(every arc endpoint resolves to a key of the Material or Process mapping,
node names being unique within each mapping), and write_sheet fails with a
structural-failure kind exactly when a Graph contains a dangling arc
endpoint. -/
theorem c3_referential_integrity :
    (∀ (schema : List ColType) (rows : List (List String)) (a : Arc),
        a ∈ (buildGraph schema rows).arcs →
          resolvesB (buildGraph schema rows) a.tail = true
            ∧ resolvesB (buildGraph schema rows) a.head = true)
      ∧ (∀ (schema : List ColType) (rows : List (List String)),
          ((buildGraph schema rows).materials.map Prod.fst).Nodup
            ∧ ((buildGraph schema rows).processes.map Prod.fst).Nodup)
      ∧ (∀ (q : Option Char) (schema : List ColType) (g : Graph),
          (∃ e, writeSheet q schema g = Except.error e)
            ↔ ∃ a ∈ g.arcs,
                ¬(resolvesB g a.tail = true ∧ resolvesB g a.head = true)) := by
  refine ⟨?_, ?_, ?_⟩
  · intro schema rows a ha
    have hres : Resolved (buildGraph schema rows) :=
      resolved_buildAux schema emptyGraph rows (fun a ha => by cases ha)
    exact hres a ha
  · intro schema rows
    exact nodupKeys_buildAux schema emptyGraph rows ⟨List.nodup_nil, List.nodup_nil⟩
  · intro q schema g
    unfold writeSheet
    cases hall : g.arcs.all (fun a => resolvesB g a.tail && resolvesB g a.head) with
    | true =>
        rw [if_pos rfl]
        constructor
        · intro ⟨e, he⟩; cases he
        · intro ⟨a, ha, hnot⟩
          exfalso
          have := List.all_eq_true.mp hall a ha
          rw [Bool.and_eq_true] at this
          exact hnot this
    | false =>
        rw [if_neg (by simp)]
        constructor
        · intro _
          have := List.all_eq_false.mp hall
          obtain ⟨a, ha, hfalse⟩ := this
          refine ⟨a, ha, fun hcontra => ?_⟩
          rw [Bool.and_eq_true] at hfalse
          exact hfalse ⟨hcontra.1, hcontra.2⟩
        · intro _
          exact ⟨"structural failure: dangling arc endpoint", rfl⟩

theorem c3_referential_integrity_witness :
    Arc.mk "s1" "sam1" ∈ (buildGraph
        [ColType.matCol MatKind.source, ColType.matCol MatKind.sample] [["s1", "sam1"]]).arcs
      ∧ resolvesB (buildGraph
          [ColType.matCol MatKind.source, ColType.matCol MatKind.sample] [["s1", "sam1"]])
          (Arc.mk "s1" "sam1").tail = true
      ∧ resolvesB (buildGraph
          [ColType.matCol MatKind.source, ColType.matCol MatKind.sample] [["s1", "sam1"]])
          (Arc.mk "s1" "sam1").head = true :=
  ⟨by decide,
   (c3_referential_integrity.1
      [ColType.matCol MatKind.source, ColType.matCol MatKind.sample] [["s1", "sam1"]]
      (Arc.mk "s1" "sam1") (by decide)).1,
   (c3_referential_integrity.1
      [ColType.matCol MatKind.source, ColType.matCol MatKind.sample] [["s1", "sam1"]]
      (Arc.mk "s1" "sam1") (by decide)).2⟩

/-- Claim C10: print_dot emits its three sections in the fixed order
materials, then processes, then arcs, one output line per entity, and
substitutes the placeholder "-" in a node's label whenever the material's
name, the process's protocol reference, or the process's name is empty, so an
empty field never produces an empty label component. -/
theorem c10_print_dot_structure (obj : Graph)
    (indent matShape matColor procShape procColor : String) :
    print_dot obj indent matShape matColor procShape procColor
        = (indent ++ "/* materials */")
            :: obj.materials.map (dotMaterialLine indent matShape matColor)
          ++ (indent ++ "/* processes */")
            :: obj.processes.map (dotProcessLine indent procShape procColor)
          ++ (indent ++ "/* arcs */") :: obj.arcs.map (dotArcLine indent)
      ∧ (print_dot obj indent matShape matColor procShape procColor).length
          = 3 + obj.materials.length + obj.processes.length + obj.arcs.length
      ∧ (∀ e ∈ obj.materials, ∃ nm : String, nm ≠ ""
            ∧ nm = (if e.2.name = "" then "-" else e.2.name)
            ∧ dotMaterialLine indent matShape matColor e
              = indent ++ jsonDumps e.1 ++ " [label="
                ++ jsonDumps (matType e.2 ++ ":\n" ++ nm ++ "\n(" ++ e.1 ++ ")")
                ++ ",shape=" ++ matShape ++ ",color=" ++ matColor
                ++ ",fontcolor=" ++ matColor ++ "]")
      ∧ (∀ e ∈ obj.processes, ∃ pr nm : String, pr ≠ "" ∧ nm ≠ ""
            ∧ pr = (if rawProtocolRef e.2 = "" then "-" else rawProtocolRef e.2)
            ∧ nm = (if e.2.name = "" then "-" else e.2.name)
            ∧ dotProcessLine indent procShape procColor e
              = indent ++ jsonDumps e.1 ++ " [label="
                ++ jsonDumps ("Process" ++ ":\n" ++ pr ++ "\n" ++ nm ++ "\n(" ++ e.1 ++ ")")
                ++ ",shape=" ++ procShape ++ ",color=" ++ procColor
                ++ ",fontcolor=" ++ procColor ++ "]") := by
  refine ⟨rfl, ?_, ?_, ?_⟩
  · show ((indent ++ "/* materials */")
        :: obj.materials.map (dotMaterialLine indent matShape matColor)
      ++ (indent ++ "/* processes */")
        :: obj.processes.map (dotProcessLine indent procShape procColor)
      ++ (indent ++ "/* arcs */") :: obj.arcs.map (dotArcLine indent)).length = _
    simp only [List.length_append, List.length_cons, List.length_map]
    omega
  · intro e _
    by_cases h : e.2.name = ""
    · refine ⟨"-", by decide, by rw [if_pos h], ?_⟩
      unfold dotMaterialLine
      rw [if_neg (by rw [h]; simp)]
    · refine ⟨e.2.name, h, by rw [if_neg h], ?_⟩
      unfold dotMaterialLine
      rw [if_pos h]
  · intro e _
    by_cases hp : rawProtocolRef e.2 = ""
    · by_cases h : e.2.name = ""
      · refine ⟨"-", "-", by decide, by decide, by rw [if_pos hp], by rw [if_pos h], ?_⟩
        unfold dotProcessLine
        rw [if_neg (by rw [hp]; simp), if_neg (by rw [h]; simp)]
      · refine ⟨"-", e.2.name, by decide, h, by rw [if_pos hp], by rw [if_neg h], ?_⟩
        unfold dotProcessLine
        rw [if_neg (by rw [hp]; simp), if_pos h]
    · by_cases h : e.2.name = ""
      · refine ⟨rawProtocolRef e.2, "-", hp, by decide, by rw [if_neg hp],
          by rw [if_pos h], ?_⟩
        unfold dotProcessLine
        rw [if_pos hp, if_neg (by rw [h]; simp)]
      · refine ⟨rawProtocolRef e.2, e.2.name, hp, h, by rw [if_neg hp],
          by rw [if_neg h], ?_⟩
        unfold dotProcessLine
        rw [if_pos hp, if_pos h]

theorem c10_print_dot_structure_witness :
    ("p1", Process.mk "" none []) ∈ (Graph.mk [("m1", Material.mk "" MatKind.source [])]
        [("p1", Process.mk "" none [])] [Arc.mk "m1" "p1"]).processes
      ∧ ∃ pr nm : String, pr ≠ "" ∧ nm ≠ ""
          ∧ pr = (if rawProtocolRef (Process.mk "" none []) = ""
                  then "-" else rawProtocolRef (Process.mk "" none []))
          ∧ nm = (if (Process.mk "" none []).name = ""
                  then "-" else (Process.mk "" none []).name)
          ∧ dotProcessLine "    " "ellipse" "blue" ("p1", Process.mk "" none [])
            = "    " ++ jsonDumps "p1" ++ " [label="
              ++ jsonDumps ("Process" ++ ":\n" ++ pr ++ "\n" ++ nm ++ "\n(" ++ "p1" ++ ")")
              ++ ",shape=" ++ "ellipse" ++ ",color=" ++ "blue"
              ++ ",fontcolor=" ++ "blue" ++ "]" :=
  ⟨by decide,
   (c10_print_dot_structure
      (Graph.mk [("m1", Material.mk "" MatKind.source [])]
        [("p1", Process.mk "" none [])] [Arc.mk "m1" "p1"])
      "    " "box" "black" "ellipse" "blue").2.2.2
     ("p1", Process.mk "" none []) (by decide)⟩

/-! ## Round trip, part 1: tokenizer lemmas -/

theorem splitCellsL_cons (c : Char) (l : List Char) :
    splitCellsL (c :: l)
      = if c = '\t' then [] :: splitCellsL l
        else
          match splitCellsL l with
          | [] => [[c]]
          | x :: xs => (c :: x) :: xs := rfl

theorem splitCellsL_no_tab (c : List Char) (h : '\t' ∉ c) : splitCellsL c = [c] := by
  induction c with
  | nil => rfl
  | cons x rest ih =>
      have hx : x ≠ '\t' := fun he => h (he ▸ List.mem_cons_self x rest)
      have hrest : '\t' ∉ rest := fun hm => h (List.mem_cons.mpr (Or.inr hm))
      rw [splitCellsL_cons, if_neg hx, ih hrest]

theorem splitCellsL_append_tab (c t : List Char) (h : '\t' ∉ c) :
    splitCellsL (c ++ '\t' :: t) = c :: splitCellsL t := by
  induction c with
  | nil =>
      show splitCellsL ('\t' :: t) = [] :: splitCellsL t
      rw [splitCellsL_cons, if_pos rfl]
  | cons x rest ih =>
      have hx : x ≠ '\t' := fun he => h (he ▸ List.mem_cons_self x rest)
      have hrest : '\t' ∉ rest := fun hm => h (List.mem_cons.mpr (Or.inr hm))
      show splitCellsL (x :: (rest ++ '\t' :: t)) = (x :: rest) :: splitCellsL t
      rw [splitCellsL_cons, if_neg hx, ih hrest]

theorem splitCells_joinCells (cs : List (List Char)) (hne : cs ≠ [])
    (h : ∀ c ∈ cs, '\t' ∉ c) : splitCellsL (joinCellsL cs) = cs := by
  induction cs with
  | nil => exact absurd rfl hne
  | cons c rest ih =>
      cases rest with
      | nil =>
          show splitCellsL (joinCellsL [c]) = [c]
          exact splitCellsL_no_tab c (h c (List.mem_cons_self c _))
      | cons c' rest' =>
          show splitCellsL (c ++ '\t' :: joinCellsL (c' :: rest')) = c :: (c' :: rest')
          rw [splitCellsL_append_tab c _ (h c (List.mem_cons_self c _))]
          rw [ih (by simp) (fun x hx => h x (List.mem_cons.mpr (Or.inr hx)))]

theorem unquote_quote (q : Option Char) (l : List Char) :
    unquoteL q (quoteL q l) = l := by
  cases q with
  | none => rfl
  | some qc =>
      show unquoteL (some qc) (qc :: (l ++ [qc])) = l
      simp [unquoteL, List.getLast?_concat, List.dropLast_concat]

theorem quoteL_no_tab (q : Option Char) (hq : q ≠ some '\t') (l : List Char)
    (h : '\t' ∉ l) : '\t' ∉ quoteL q l := by
  cases q with
  | none => exact h
  | some qc =>
      have hqc : qc ≠ '\t' := fun he => hq (by rw [he])
      intro hmem
      rcases List.mem_cons.mp hmem with h1 | h1
      · exact hqc h1.symm
      · rcases List.mem_append.mp h1 with h2 | h2
        · exact h h2
        · exact hqc (List.mem_singleton.mp h2).symm

theorem map_self_of_pointwise {α : Type} (f : α → α) (l : List α)
    (h : ∀ a ∈ l, f a = a) : l.map f = l := by
  induction l with
  | nil => rfl
  | cons x rest ih =>
      show f x :: rest.map f = x :: rest
      rw [h x (List.mem_cons_self x rest), ih (fun a ha => h a (List.mem_cons.mpr (Or.inr ha)))]

theorem string_mk_data (s : String) : String.mk s.data = s := rfl

theorem tokenizeLine_encodeRow (q : Option Char) (hq : q ≠ some '\t')
    (r : List String) (hne : r ≠ []) (h : ∀ s ∈ r, '\t' ∉ s.data) :
    tokenizeLine q (encodeRow q r) = r := by
  unfold tokenizeLine encodeRow
  rw [splitCells_joinCells]
  · rw [List.map_map]
    refine map_self_of_pointwise _ r (fun s hs => ?_)
    show String.mk (unquoteL q (quoteL q s.data)) = s
    rw [unquote_quote, string_mk_data]
  · intro he
    exact hne (List.map_eq_nil_iff.mp he)
  · intro c hc
    obtain ⟨s, hs, hcs⟩ := List.mem_map.mp hc
    rw [← hcs]
    exact quoteL_no_tab q hq s.data (h s hs)

/-! ## Round trip, part 2: row characterization on structurally valid rows -/

/-- The leading attribute cells of a (column, cell) list, up to the first
node-producing column. -/
def leadingAttrsP : List (ColType × String) → List Attr
  | (ColType.attrCol q, v) :: rest => ⟨q, v⟩ :: leadingAttrsP rest
  | _ => []

/-- The node instances of a full row (no empty node cells): one per
node-producing column, carrying the attribute cells of its column group. -/
def nodeInstsP : List (ColType × String) → List RowNode
  | [] => []
  | (ColType.attrCol _, _) :: rest => nodeInstsP rest
  | (ColType.matCol k, v) :: rest =>
      RowNode.mk (NodeKind.mat k) v (leadingAttrsP rest) :: nodeInstsP rest
  | (ColType.procCol nt, v) :: rest =>
      RowNode.mk (NodeKind.proc nt) v (leadingAttrsP rest) :: nodeInstsP rest

theorem rowNodesAux_some_eq (pairs : List (ColType × String))
    (h : ∀ pr ∈ pairs, isNodeCol pr.1 = true → pr.2 ≠ "") :
    ∀ cur : RowNode,
      rowNodesAux pairs (some cur)
        = RowNode.mk cur.kind cur.name (cur.attrs ++ leadingAttrsP pairs)
            :: nodeInstsP pairs := by
  induction pairs with
  | nil => intro cur; simp [rowNodesAux, leadingAttrsP, nodeInstsP]
  | cons pr rest ih =>
      intro cur
      have hrest : ∀ pr ∈ rest, isNodeCol pr.1 = true → pr.2 ≠ "" :=
        fun x hx => h x (List.mem_cons.mpr (Or.inr hx))
      obtain ⟨col, cell⟩ := pr
      cases col with
      | matCol k =>
          have hcell : cell ≠ "" := h (ColType.matCol k, cell)
            (List.mem_cons_self _ _) rfl
          simp only [rowNodesAux, if_neg hcell, Option.toList_some, ih hrest,
            leadingAttrsP, nodeInstsP, List.nil_append, List.append_nil,
            List.singleton_append]
      | procCol nt =>
          have hcell : cell ≠ "" := h (ColType.procCol nt, cell)
            (List.mem_cons_self _ _) rfl
          simp only [rowNodesAux, if_neg hcell, Option.toList_some, ih hrest,
            leadingAttrsP, nodeInstsP, List.nil_append, List.append_nil,
            List.singleton_append]
      | attrCol qual =>
          simp only [rowNodesAux, Option.map_some', ih hrest, leadingAttrsP,
            nodeInstsP, List.append_assoc, List.singleton_append]

theorem rowNodesAux_none_eq (pairs : List (ColType × String))
    (h : ∀ pr ∈ pairs, isNodeCol pr.1 = true → pr.2 ≠ "") :
    rowNodesAux pairs none = nodeInstsP pairs := by
  induction pairs with
  | nil => rfl
  | cons pr rest ih =>
      have hrest : ∀ pr ∈ rest, isNodeCol pr.1 = true → pr.2 ≠ "" :=
        fun x hx => h x (List.mem_cons.mpr (Or.inr hx))
      obtain ⟨col, cell⟩ := pr
      cases col with
      | matCol k =>
          have hcell : cell ≠ "" := h (ColType.matCol k, cell)
            (List.mem_cons_self _ _) rfl
          simp only [rowNodesAux, if_neg hcell, Option.toList_none,
            rowNodesAux_some_eq rest hrest, nodeInstsP, List.nil_append]
      | procCol nt =>
          have hcell : cell ≠ "" := h (ColType.procCol nt, cell)
            (List.mem_cons_self _ _) rfl
          simp only [rowNodesAux, if_neg hcell, Option.toList_none,
            rowNodesAux_some_eq rest hrest, nodeInstsP, List.nil_append]
      | attrCol qual =>
          simp only [rowNodesAux, Option.map_none', nodeInstsP]
          exact ih hrest

/-- A node instance conforms to its node group: right kind, non-empty name,
attribute qualifiers equal to the group's qualifiers. -/
def matchesG (gr : NodeKind × List String) (n : RowNode) : Prop :=
  n.kind = gr.1 ∧ n.name ≠ "" ∧ n.attrs.map Attr.qual = gr.2

theorem leadingAttrsP_quals (pairs : List (ColType × String)) :
    (leadingAttrsP pairs).map Attr.qual = leadingQuals (pairs.map Prod.fst) := by
  induction pairs with
  | nil => rfl
  | cons pr rest ih =>
      cases pr with
      | mk col cell =>
          cases col with
          | matCol k => rfl
          | procCol nt => rfl
          | attrCol qual =>
              show qual :: (leadingAttrsP rest).map Attr.qual
                  = qual :: leadingQuals (rest.map Prod.fst)
              rw [ih]

theorem nodeInstsP_matches (pairs : List (ColType × String))
    (h : ∀ pr ∈ pairs, isNodeCol pr.1 = true → pr.2 ≠ "") :
    List.Forall₂ matchesG (nodeGroups (pairs.map Prod.fst)) (nodeInstsP pairs) := by
  induction pairs with
  | nil => exact List.Forall₂.nil
  | cons pr rest ih =>
      have hrest : ∀ pr ∈ rest, isNodeCol pr.1 = true → pr.2 ≠ "" :=
        fun x hx => h x (List.mem_cons.mpr (Or.inr hx))
      cases pr with
      | mk col cell =>
          cases col with
          | matCol k =>
              refine List.Forall₂.cons ?_ (ih hrest)
              exact ⟨rfl, h (ColType.matCol k, cell) (List.mem_cons_self _ _) rfl,
                     leadingAttrsP_quals rest⟩
          | procCol nt =>
              refine List.Forall₂.cons ?_ (ih hrest)
              exact ⟨rfl, h (ColType.procCol nt, cell) (List.mem_cons_self _ _) rfl,
                     leadingAttrsP_quals rest⟩
          | attrCol qual => exact ih hrest

/-- Write-regularity of a sheet against its schema, the discipline under
which the writer's traversal-path output reproduces the sheet's graph: every
row has the header's length, every node-producing cell is non-empty, and a
node name determines its node-column position across the whole sheet.  Only
the first condition is a structural check of the spec (section 4.1's
row-length check, section 7); the other two go beyond structural validity (an
empty node cell is benign and merely skipped, section 4.3).  They state that
the sheet's splits and pools are fully represented; the round-trip theorems
hold under this regularity and are refuted without it (compare the proteome
assay the test suite skips for missing splits and pools). -/
def writeRegular (schema : List ColType) (rows : List (List String)) : Prop :=
  (∀ r ∈ rows, r.length = schema.length
      ∧ ∀ pr ∈ schema.zip r, isNodeCol pr.1 = true → pr.2 ≠ "")
    ∧ ∀ r ∈ rows, ∀ r' ∈ rows,
        ∀ i : Fin (rowNodes schema r).length, ∀ j : Fin (rowNodes schema r').length,
          ((rowNodes schema r).get i).name = ((rowNodes schema r').get j).name →
            (i : Nat) = (j : Nat)

theorem rowNodes_eq_nodeInstsP (schema : List ColType) (r : List String)
    (h : ∀ pr ∈ schema.zip r, isNodeCol pr.1 = true → pr.2 ≠ "") :
    rowNodes schema r = nodeInstsP (schema.zip r) :=
  rowNodesAux_none_eq (schema.zip r) h

theorem rowNodes_shape (schema : List ColType) (r : List String)
    (hlen : r.length = schema.length)
    (h : ∀ pr ∈ schema.zip r, isNodeCol pr.1 = true → pr.2 ≠ "") :
    List.Forall₂ matchesG (nodeGroups schema) (rowNodes schema r) := by
  rw [rowNodes_eq_nodeInstsP schema r h]
  have hmap : (schema.zip r).map Prod.fst = schema :=
    List.map_fst_zip schema r (le_of_eq hlen.symm)
  have := nodeInstsP_matches (schema.zip r) h
  rw [hmap] at this
  exact this

/-! ## Round trip, part 3: rendering a node-instance list inverts reading -/

/-- A node-instance list fits a column list while `pend` attribute values of
the node last emitted are still to be written: attribute columns consume the
pending values with matching qualifiers, node columns require the pending
values exhausted and start the next instance. -/
def fits : List ColType → List RowNode → List Attr → Prop
  | [], ns, pend => ns = [] ∧ pend = []
  | ColType.attrCol q :: rest, ns, a :: pend => a.qual = q ∧ fits rest ns pend
  | ColType.attrCol _ :: _, _, [] => False
  | ColType.matCol k :: rest, n :: ns, pend =>
      pend = [] ∧ n.kind = NodeKind.mat k ∧ n.name ≠ "" ∧ fits rest ns n.attrs
  | ColType.matCol _ :: _, [], _ => False
  | ColType.procCol nt :: rest, n :: ns, pend =>
      pend = [] ∧ n.kind = NodeKind.proc nt ∧ n.name ≠ "" ∧ fits rest ns n.attrs
  | ColType.procCol _ :: _, [], _ => False

/-- A node-instance list fits a column list from the start: attribute columns
before the first node column carry no owner, node columns start instances. -/
def fits0 : List ColType → List RowNode → Prop
  | [], ns => ns = []
  | ColType.attrCol _ :: rest, ns => fits0 rest ns
  | ColType.matCol k :: rest, n :: ns =>
      n.kind = NodeKind.mat k ∧ n.name ≠ "" ∧ fits rest ns n.attrs
  | ColType.matCol _ :: _, [] => False
  | ColType.procCol nt :: rest, n :: ns =>
      n.kind = NodeKind.proc nt ∧ n.name ≠ "" ∧ fits rest ns n.attrs
  | ColType.procCol _ :: _, [] => False

theorem fits_of_forall2 :
    ∀ (cs : List ColType) (ns : List RowNode) (pend : List Attr),
      pend.map Attr.qual = leadingQuals cs →
      List.Forall₂ matchesG (nodeGroups cs) ns → fits cs ns pend := by
  intro cs
  induction cs with
  | nil =>
      intro ns pend hq hf
      cases hf
      exact ⟨rfl, List.map_eq_nil_iff.mp hq⟩
  | cons col rest ih =>
      intro ns pend hq hf
      cases col with
      | attrCol q =>
          cases pend with
          | nil => cases hq
          | cons a pend' =>
              have hq' := hq
              rw [List.map_cons] at hq'
              show a.qual = q ∧ fits rest ns pend'
              injection hq' with h1 h2
              exact ⟨h1, ih ns pend' h2 hf⟩
      | matCol k =>
          have hpend : pend = [] := by
            have : pend.map Attr.qual = [] := hq
            exact List.map_eq_nil_iff.mp this
          cases hf with
          | cons hm hrest =>
              rename_i n ns'
              exact ⟨hpend, hm.1, hm.2.1, ih ns' n.attrs hm.2.2 hrest⟩
      | procCol nt =>
          have hpend : pend = [] := by
            have : pend.map Attr.qual = [] := hq
            exact List.map_eq_nil_iff.mp this
          cases hf with
          | cons hm hrest =>
              rename_i n ns'
              exact ⟨hpend, hm.1, hm.2.1, ih ns' n.attrs hm.2.2 hrest⟩

theorem fits0_of_forall2 :
    ∀ (cs : List ColType) (ns : List RowNode),
      List.Forall₂ matchesG (nodeGroups cs) ns → fits0 cs ns := by
  intro cs
  induction cs with
  | nil =>
      intro ns hf
      cases hf
      rfl
  | cons col rest ih =>
      intro ns hf
      cases col with
      | attrCol q => exact ih ns hf
      | matCol k =>
          cases hf with
          | cons hm hrest =>
              rename_i n ns'
              exact ⟨hm.1, hm.2.1, fits_of_forall2 rest ns' n.attrs hm.2.2 hrest⟩
      | procCol nt =>
          cases hf with
          | cons hm hrest =>
              rename_i n ns'
              exact ⟨hm.1, hm.2.1, fits_of_forall2 rest ns' n.attrs hm.2.2 hrest⟩

theorem renderAux_length :
    ∀ (cs : List ColType) (ns : List RowNode) (pend : List Attr),
      (renderAux cs ns pend).length = cs.length := by
  intro cs
  induction cs with
  | nil => intro ns pend; rfl
  | cons col rest ih =>
      intro ns pend
      cases col with
      | attrCol q =>
          cases pend with
          | nil => simp [renderAux, ih]
          | cons a pend' => simp [renderAux, ih]
      | matCol k =>
          cases ns with
          | nil => simp [renderAux, ih]
          | cons n ns' => simp [renderAux, ih]
      | procCol nt =>
          cases ns with
          | nil => simp [renderAux, ih]
          | cons n ns' => simp [renderAux, ih]

theorem rowNodesAux_renderAux :
    ∀ (cs : List ColType) (ns : List RowNode) (pend : List Attr) (cur : RowNode),
      fits cs ns pend →
      rowNodesAux (cs.zip (renderAux cs ns pend)) (some cur)
        = RowNode.mk cur.kind cur.name (cur.attrs ++ pend) :: ns := by
  intro cs
  induction cs with
  | nil =>
      intro ns pend cur hfit
      obtain ⟨hns, hpend⟩ := hfit
      subst hns; subst hpend
      simp [renderAux, rowNodesAux]
  | cons col rest ih =>
      intro ns pend cur hfit
      cases col with
      | attrCol q =>
          cases pend with
          | nil => cases hfit
          | cons a pend' =>
              obtain ⟨hq, hfit'⟩ := hfit
              show rowNodesAux ((ColType.attrCol q, a.value)
                  :: rest.zip (renderAux rest ns pend')) (some cur) = _
              simp only [rowNodesAux, Option.map_some']
              rw [ih ns pend' _ hfit']
              have ha : Attr.mk q a.value = a := by
                cases a with
                | mk aq av =>
                    simp only at hq
                    rw [hq]
              simp only [ha, List.append_assoc, List.singleton_append]
      | matCol k =>
          cases ns with
          | nil => cases hfit
          | cons n ns' =>
              obtain ⟨hpend, hkind, hname, hfit'⟩ := hfit
              subst hpend
              show rowNodesAux ((ColType.matCol k, n.name)
                  :: rest.zip (renderAux rest ns' n.attrs)) (some cur) = _
              simp only [rowNodesAux, if_neg hname, Option.toList_some]
              rw [ih ns' n.attrs _ hfit']
              simp only [List.append_nil, List.nil_append, List.singleton_append]
              have hn : RowNode.mk (NodeKind.mat k) n.name n.attrs = n := by
                cases n with
                | mk nk nn na =>
                    simp only at hkind
                    rw [hkind]
              rw [hn]
      | procCol nt =>
          cases ns with
          | nil => cases hfit
          | cons n ns' =>
              obtain ⟨hpend, hkind, hname, hfit'⟩ := hfit
              subst hpend
              show rowNodesAux ((ColType.procCol nt, n.name)
                  :: rest.zip (renderAux rest ns' n.attrs)) (some cur) = _
              simp only [rowNodesAux, if_neg hname, Option.toList_some]
              rw [ih ns' n.attrs _ hfit']
              simp only [List.append_nil, List.nil_append, List.singleton_append]
              have hn : RowNode.mk (NodeKind.proc nt) n.name n.attrs = n := by
                cases n with
                | mk nk nn na =>
                    simp only at hkind
                    rw [hkind]
              rw [hn]

theorem rowNodes_renderRow :
    ∀ (cs : List ColType) (ns : List RowNode), fits0 cs ns →
      rowNodes cs (renderRow cs ns) = ns := by
  intro cs
  induction cs with
  | nil =>
      intro ns hfit
      rw [hfit]
      rfl
  | cons col rest ih =>
      intro ns hfit
      cases col with
      | attrCol q =>
          show rowNodesAux ((ColType.attrCol q, "")
              :: rest.zip (renderAux rest ns [])) none = ns
          simp only [rowNodesAux, Option.map_none']
          exact ih ns hfit
      | matCol k =>
          cases ns with
          | nil => cases hfit
          | cons n ns' =>
              obtain ⟨hkind, hname, hfit'⟩ := hfit
              show rowNodesAux ((ColType.matCol k, n.name)
                  :: rest.zip (renderAux rest ns' n.attrs)) none = n :: ns'
              simp only [rowNodesAux, if_neg hname, Option.toList_none,
                List.nil_append]
              rw [rowNodesAux_renderAux rest ns' n.attrs _ hfit']
              rw [List.nil_append]
              have hn : RowNode.mk (NodeKind.mat k) n.name n.attrs = n := by
                cases n with
                | mk nk nn na =>
                    simp only at hkind
                    rw [hkind]
              rw [hn]
      | procCol nt =>
          cases ns with
          | nil => cases hfit
          | cons n ns' =>
              obtain ⟨hkind, hname, hfit'⟩ := hfit
              show rowNodesAux ((ColType.procCol nt, n.name)
                  :: rest.zip (renderAux rest ns' n.attrs)) none = n :: ns'
              simp only [rowNodesAux, if_neg hname, Option.toList_none,
                List.nil_append]
              rw [rowNodesAux_renderAux rest ns' n.attrs _ hfit']
              rw [List.nil_append]
              have hn : RowNode.mk (NodeKind.proc nt) n.name n.attrs = n := by
                cases n with
                | mk nk nn na =>
                    simp only at hkind
                    rw [hkind]
              rw [hn]

/-! ## Round trip, part 4: characterizing the built graph -/

theorem insertNode_materials_some :
    ∀ (g : Graph) (x : RowNode) (n : String) (M : Material),
      alookup n (insertNode g x).materials = some M →
      alookup n g.materials = some M
        ∨ (x.name = n ∧ ∃ k, x.kind = NodeKind.mat k ∧ M = Material.mk n k x.attrs) := by
  intro g x n M h
  unfold insertNode at h
  cases hk : x.kind with
  | mat k =>
      rw [hk] at h
      cases hl : alookup x.name g.materials with
      | some v => rw [hl] at h; exact Or.inl h
      | none =>
          rw [hl] at h
          simp only at h
          rw [alookup_append] at h
          cases hl2 : alookup n g.materials with
          | some v => rw [hl2] at h; exact Or.inl h
          | none =>
              rw [hl2] at h
              simp only [alookup] at h
              by_cases he : x.name = n
              · rw [if_pos he] at h
                injection h with h
                refine Or.inr ⟨he, k, rfl, ?_⟩
                rw [← h, he]
              · rw [if_neg he] at h
                cases h
  | proc nt =>
      rw [hk] at h
      cases hl : alookup x.name g.processes with
      | some v => rw [hl] at h; exact Or.inl h
      | none => rw [hl] at h; exact Or.inl h

theorem insertNode_processes_some :
    ∀ (g : Graph) (x : RowNode) (n : String) (P : Process),
      alookup n (insertNode g x).processes = some P →
      alookup n g.processes = some P
        ∨ (x.name = n ∧ ∃ nt, x.kind = NodeKind.proc nt ∧ P = Process.mk n nt x.attrs) := by
  intro g x n P h
  unfold insertNode at h
  cases hk : x.kind with
  | proc nt =>
      rw [hk] at h
      cases hl : alookup x.name g.processes with
      | some v => rw [hl] at h; exact Or.inl h
      | none =>
          rw [hl] at h
          simp only at h
          rw [alookup_append] at h
          cases hl2 : alookup n g.processes with
          | some v => rw [hl2] at h; exact Or.inl h
          | none =>
              rw [hl2] at h
              simp only [alookup] at h
              by_cases he : x.name = n
              · rw [if_pos he] at h
                injection h with h
                refine Or.inr ⟨he, nt, rfl, ?_⟩
                rw [← h, he]
              · rw [if_neg he] at h
                cases h
  | mat k =>
      rw [hk] at h
      cases hl : alookup x.name g.materials with
      | some v => rw [hl] at h; exact Or.inl h
      | none => rw [hl] at h; exact Or.inl h

theorem insertNodes_materials_some :
    ∀ (ns : List RowNode) (g : Graph) (n : String) (M : Material),
      alookup n (insertNodes g ns).materials = some M →
      alookup n g.materials = some M
        ∨ ∃ x ∈ ns, x.name = n ∧ ∃ k, x.kind = NodeKind.mat k
            ∧ M = Material.mk n k x.attrs := by
  intro ns
  induction ns with
  | nil => intro g n M h; exact Or.inl h
  | cons x rest ih =>
      intro g n M h
      rcases ih (insertNode g x) n M h with h1 | h1
      · rcases insertNode_materials_some g x n M h1 with h2 | h2
        · exact Or.inl h2
        · exact Or.inr ⟨x, List.mem_cons_self x rest, h2⟩
      · obtain ⟨y, hy, hrest⟩ := h1
        exact Or.inr ⟨y, List.mem_cons.mpr (Or.inr hy), hrest⟩

theorem insertNodes_processes_some :
    ∀ (ns : List RowNode) (g : Graph) (n : String) (P : Process),
      alookup n (insertNodes g ns).processes = some P →
      alookup n g.processes = some P
        ∨ ∃ x ∈ ns, x.name = n ∧ ∃ nt, x.kind = NodeKind.proc nt
            ∧ P = Process.mk n nt x.attrs := by
  intro ns
  induction ns with
  | nil => intro g n P h; exact Or.inl h
  | cons x rest ih =>
      intro g n P h
      rcases ih (insertNode g x) n P h with h1 | h1
      · rcases insertNode_processes_some g x n P h1 with h2 | h2
        · exact Or.inl h2
        · exact Or.inr ⟨x, List.mem_cons_self x rest, h2⟩
      · obtain ⟨y, hy, hrest⟩ := h1
        exact Or.inr ⟨y, List.mem_cons.mpr (Or.inr hy), hrest⟩

theorem buildAux_materials_some (schema : List ColType) :
    ∀ (rows : List (List String)) (g : Graph) (n : String) (M : Material),
      alookup n (buildAux schema g rows).materials = some M →
      alookup n g.materials = some M
        ∨ ∃ r ∈ rows, ∃ x ∈ rowNodes schema r, x.name = n
            ∧ ∃ k, x.kind = NodeKind.mat k ∧ M = Material.mk n k x.attrs := by
  intro rows
  induction rows with
  | nil => intro g n M h; exact Or.inl h
  | cons r rest ih =>
      intro g n M h
      rcases ih (addRow schema g r) n M h with h1 | h1
      · unfold addRow at h1
        rw [insertArcs_materials] at h1
        rcases insertNodes_materials_some _ g n M h1 with h2 | h2
        · exact Or.inl h2
        · obtain ⟨x, hx, hrest⟩ := h2
          exact Or.inr ⟨r, List.mem_cons_self r rest, x, hx, hrest⟩
      · obtain ⟨r', hr', hrest⟩ := h1
        exact Or.inr ⟨r', List.mem_cons.mpr (Or.inr hr'), hrest⟩

theorem buildAux_processes_some (schema : List ColType) :
    ∀ (rows : List (List String)) (g : Graph) (n : String) (P : Process),
      alookup n (buildAux schema g rows).processes = some P →
      alookup n g.processes = some P
        ∨ ∃ r ∈ rows, ∃ x ∈ rowNodes schema r, x.name = n
            ∧ ∃ nt, x.kind = NodeKind.proc nt ∧ P = Process.mk n nt x.attrs := by
  intro rows
  induction rows with
  | nil => intro g n P h; exact Or.inl h
  | cons r rest ih =>
      intro g n P h
      rcases ih (addRow schema g r) n P h with h1 | h1
      · unfold addRow at h1
        rw [insertArcs_processes] at h1
        rcases insertNodes_processes_some _ g n P h1 with h2 | h2
        · exact Or.inl h2
        · obtain ⟨x, hx, hrest⟩ := h2
          exact Or.inr ⟨r, List.mem_cons_self r rest, x, hx, hrest⟩
      · obtain ⟨r', hr', hrest⟩ := h1
        exact Or.inr ⟨r', List.mem_cons.mpr (Or.inr hr'), hrest⟩

theorem insertNode_self_materials_isSome (g : Graph) (x : RowNode) (k : MatKind)
    (hk : x.kind = NodeKind.mat k) :
    (alookup x.name (insertNode g x).materials).isSome = true := by
  unfold insertNode
  rw [hk]
  cases hl : alookup x.name g.materials with
  | some v => simp [hl]
  | none =>
      simp only [hl]
      rw [alookup_append, hl]
      simp [alookup]

theorem insertNode_self_processes_isSome (g : Graph) (x : RowNode) (nt : Option String)
    (hk : x.kind = NodeKind.proc nt) :
    (alookup x.name (insertNode g x).processes).isSome = true := by
  unfold insertNode
  rw [hk]
  cases hl : alookup x.name g.processes with
  | some v => simp [hl]
  | none =>
      simp only [hl]
      rw [alookup_append, hl]
      simp [alookup]

theorem alookup_isSome_mono_materials {g g' : Graph} (hext : Extends g g') (n : String)
    (h : (alookup n g.materials).isSome = true) :
    (alookup n g'.materials).isSome = true := by
  cases hl : alookup n g.materials with
  | none => rw [hl] at h; cases h
  | some v => rw [hext.1 n v hl]; rfl

theorem alookup_isSome_mono_processes {g g' : Graph} (hext : Extends g g') (n : String)
    (h : (alookup n g.processes).isSome = true) :
    (alookup n g'.processes).isSome = true := by
  cases hl : alookup n g.processes with
  | none => rw [hl] at h; cases h
  | some v => rw [hext.2.1 n v hl]; rfl

theorem insertNodes_materials_isSome :
    ∀ (ns : List RowNode) (g : Graph) (x : RowNode) (k : MatKind),
      x ∈ ns → x.kind = NodeKind.mat k →
      (alookup x.name (insertNodes g ns).materials).isSome = true := by
  intro ns
  induction ns with
  | nil => intro g x k hx; cases hx
  | cons y rest ih =>
      intro g x k hx hk
      rcases List.mem_cons.mp hx with h | h
      · subst h
        exact alookup_isSome_mono_materials
          (extends_insertNodes (insertNode g x) rest) x.name
          (insertNode_self_materials_isSome g x k hk)
      · exact ih (insertNode g y) x k h hk

theorem insertNodes_processes_isSome :
    ∀ (ns : List RowNode) (g : Graph) (x : RowNode) (nt : Option String),
      x ∈ ns → x.kind = NodeKind.proc nt →
      (alookup x.name (insertNodes g ns).processes).isSome = true := by
  intro ns
  induction ns with
  | nil => intro g x nt hx; cases hx
  | cons y rest ih =>
      intro g x nt hx hk
      rcases List.mem_cons.mp hx with h | h
      · subst h
        exact alookup_isSome_mono_processes
          (extends_insertNodes (insertNode g x) rest) x.name
          (insertNode_self_processes_isSome g x nt hk)
      · exact ih (insertNode g y) x nt h hk

theorem buildAux_materials_isSome (schema : List ColType) :
    ∀ (rows : List (List String)) (g : Graph) (r : List String) (x : RowNode)
      (k : MatKind), r ∈ rows → x ∈ rowNodes schema r → x.kind = NodeKind.mat k →
      (alookup x.name (buildAux schema g rows).materials).isSome = true := by
  intro rows
  induction rows with
  | nil => intro g r x k hr; cases hr
  | cons r0 rest ih =>
      intro g r x k hr hx hk
      rcases List.mem_cons.mp hr with h | h
      · subst h
        refine alookup_isSome_mono_materials (extends_buildAux schema _ rest) x.name ?_
        unfold addRow
        have : (alookup x.name (insertNodes g (rowNodes schema r)).materials).isSome
            = true := insertNodes_materials_isSome _ g x k hx hk
        rw [show (insertArcs (insertNodes g (rowNodes schema r))
            (rowArcs (rowNodes schema r))).materials
          = (insertNodes g (rowNodes schema r)).materials from insertArcs_materials _ _]
        exact this
      · exact ih (addRow schema g r0) r x k h hx hk

theorem buildAux_processes_isSome (schema : List ColType) :
    ∀ (rows : List (List String)) (g : Graph) (r : List String) (x : RowNode)
      (nt : Option String), r ∈ rows → x ∈ rowNodes schema r →
      x.kind = NodeKind.proc nt →
      (alookup x.name (buildAux schema g rows).processes).isSome = true := by
  intro rows
  induction rows with
  | nil => intro g r x nt hr; cases hr
  | cons r0 rest ih =>
      intro g r x nt hr hx hk
      rcases List.mem_cons.mp hr with h | h
      · subst h
        refine alookup_isSome_mono_processes (extends_buildAux schema _ rest) x.name ?_
        unfold addRow
        have : (alookup x.name (insertNodes g (rowNodes schema r)).processes).isSome
            = true := insertNodes_processes_isSome _ g x nt hx hk
        rw [show (insertArcs (insertNodes g (rowNodes schema r))
            (rowArcs (rowNodes schema r))).processes
          = (insertNodes g (rowNodes schema r)).processes from insertArcs_processes _ _]
        exact this
      · exact ih (addRow schema g r0) r x nt h hx hk

theorem buildAux_arcs_mem (schema : List ColType) :
    ∀ (rows : List (List String)) (g : Graph) (a : Arc),
      a ∈ (buildAux schema g rows).arcs
        ↔ a ∈ g.arcs ∨ ∃ r ∈ rows, a ∈ rowArcs (rowNodes schema r) := by
  intro rows
  induction rows with
  | nil =>
      intro g a
      simp [buildAux]
  | cons r rest ih =>
      intro g a
      show a ∈ (buildAux schema (addRow schema g r) rest).arcs ↔ _
      rw [ih (addRow schema g r) a]
      unfold addRow
      rw [mem_insertArcs, insertNodes_arcs]
      constructor
      · intro h
        rcases h with (h1 | h1) | h1
        · exact Or.inl h1
        · exact Or.inr ⟨r, List.mem_cons_self r rest, h1⟩
        · obtain ⟨r', hr', ha⟩ := h1
          exact Or.inr ⟨r', List.mem_cons.mpr (Or.inr hr'), ha⟩
      · intro h
        rcases h with h1 | h1
        · exact Or.inl (Or.inl h1)
        · obtain ⟨r', hr', ha⟩ := h1
          rcases List.mem_cons.mp hr' with h2 | h2
          · subst h2
            exact Or.inl (Or.inr ha)
          · exact Or.inr ⟨r', h2, ha⟩

/-- All rows of a sheet agree on node instances: equal names mean equal
instances (in particular equal kinds and attribute values). -/
def RowsUniform (schema : List ColType) (rows : List (List String)) : Prop :=
  ∀ r ∈ rows, ∀ r' ∈ rows, ∀ x ∈ rowNodes schema r, ∀ y ∈ rowNodes schema r',
    x.name = y.name → x = y

theorem uniform_build_materials_lookup (schema : List ColType)
    (rows : List (List String)) (hu : RowsUniform schema rows)
    (r : List String) (x : RowNode) (k : MatKind)
    (hr : r ∈ rows) (hx : x ∈ rowNodes schema r) (hk : x.kind = NodeKind.mat k) :
    alookup x.name (buildGraph schema rows).materials
      = some (Material.mk x.name k x.attrs) := by
  have hsome := buildAux_materials_isSome schema rows emptyGraph r x k hr hx hk
  cases hl : alookup x.name (buildGraph schema rows).materials with
  | none =>
      unfold buildGraph at hl
      rw [hl] at hsome
      cases hsome
  | some M =>
      have := buildAux_materials_some schema rows emptyGraph x.name M hl
      rcases this with h1 | h1
      · cases h1
      · obtain ⟨r', hr', y, hy, hyn, k', hyk, hM⟩ := h1
        have hxy : y = x := hu r' hr' r hr y hy x hx hyn
        subst hxy
        rw [hyk] at hk
        injection hk with hk
        subst hk
        rw [hM, ← hyn]

theorem uniform_build_processes_lookup (schema : List ColType)
    (rows : List (List String)) (hu : RowsUniform schema rows)
    (r : List String) (x : RowNode) (nt : Option String)
    (hr : r ∈ rows) (hx : x ∈ rowNodes schema r) (hk : x.kind = NodeKind.proc nt) :
    alookup x.name (buildGraph schema rows).processes
      = some (Process.mk x.name nt x.attrs) := by
  have hsome := buildAux_processes_isSome schema rows emptyGraph r x nt hr hx hk
  cases hl : alookup x.name (buildGraph schema rows).processes with
  | none =>
      unfold buildGraph at hl
      rw [hl] at hsome
      cases hsome
  | some P =>
      have := buildAux_processes_some schema rows emptyGraph x.name P hl
      rcases this with h1 | h1
      · cases h1
      · obtain ⟨r', hr', y, hy, hyn, nt', hyk, hP⟩ := h1
        have hxy : y = x := hu r' hr' r hr y hy x hx hyn
        subst hxy
        rw [hyk] at hk
        injection hk with hk
        subst hk
        rw [hP, ← hyn]

theorem build_materials_none_iff (schema : List ColType)
    (rows : List (List String)) (n : String) :
    alookup n (buildGraph schema rows).materials = none
      ↔ ∀ r ∈ rows, ∀ x ∈ rowNodes schema r, x.name = n →
          ∀ k, x.kind ≠ NodeKind.mat k := by
  constructor
  · intro h r hr x hx hn k hk
    have hsome := buildAux_materials_isSome schema rows emptyGraph r x k hr hx hk
    have h' : alookup n (buildAux schema emptyGraph rows).materials = none := h
    rw [hn, h'] at hsome
    cases hsome
  · intro h
    cases hl : alookup n (buildGraph schema rows).materials with
    | none => rfl
    | some M =>
        exfalso
        rcases buildAux_materials_some schema rows emptyGraph n M hl with h1 | h1
        · cases h1
        · obtain ⟨r, hr, x, hx, hn, k, hk, _⟩ := h1
          exact h r hr x hx hn k hk

theorem build_processes_none_iff (schema : List ColType)
    (rows : List (List String)) (n : String) :
    alookup n (buildGraph schema rows).processes = none
      ↔ ∀ r ∈ rows, ∀ x ∈ rowNodes schema r, x.name = n →
          ∀ nt, x.kind ≠ NodeKind.proc nt := by
  constructor
  · intro h r hr x hx hn nt hk
    have hsome := buildAux_processes_isSome schema rows emptyGraph r x nt hr hx hk
    have h' : alookup n (buildAux schema emptyGraph rows).processes = none := h
    rw [hn, h'] at hsome
    cases hsome
  · intro h
    cases hl : alookup n (buildGraph schema rows).processes with
    | none => rfl
    | some P =>
        exfalso
        rcases buildAux_processes_some schema rows emptyGraph n P hl with h1 | h1
        · cases h1
        · obtain ⟨r, hr, x, hx, hn, nt, hk, _⟩ := h1
          exact h r hr x hx hn nt hk

theorem buildGraph_arcs_mem (schema : List ColType) (rows : List (List String))
    (a : Arc) :
    a ∈ (buildGraph schema rows).arcs
      ↔ ∃ r ∈ rows, a ∈ rowArcs (rowNodes schema r) := by
  unfold buildGraph
  rw [buildAux_arcs_mem]
  constructor
  · intro h
    rcases h with h1 | h1
    · cases h1
    · exact h1
  · exact Or.inr

/-! ## Round trip, part 5: characterizing path enumeration -/

/-- A full traversal chain: non-empty, starting at a start node, every
consecutive pair an arc of the graph. -/
def IsFullChain (g : Graph) (p : List String) : Prop :=
  (∃ s, p.head? = some s ∧ s ∈ startNodes g)
    ∧ List.Chain' (fun a b => Arc.mk a b ∈ g.arcs) p

theorem mem_extendPath (g : Graph) (p q : List String) :
    q ∈ extendPath g p
      ↔ ∃ x t, p = x :: t ∧ ∃ b, Arc.mk x b ∈ g.arcs ∧ q = b :: p := by
  cases p with
  | nil => simp [extendPath]
  | cons x t =>
      simp only [extendPath, List.mem_map, List.mem_filter]
      constructor
      · intro ⟨a, ⟨hmem, htail⟩, hq⟩
        refine ⟨x, t, rfl, a.head, ?_, hq.symm⟩
        have : a.tail = x := by
          have := htail
          rw [beq_iff_eq] at this
          exact this
        rw [← this]
        cases a
        exact hmem
      · intro ⟨x', t', hp, b, hb, hq⟩
        injection hp with h1 h2
        subst h1; subst h2
        exact ⟨Arc.mk x b, ⟨hb, by rw [beq_iff_eq]⟩, hq.symm⟩

theorem mem_pathsUpto (g : Graph) :
    ∀ (j : Nat) (q : List String),
      q ∈ pathsUpto g j
        ↔ q.length = j + 1
          ∧ (∃ s, q.getLast? = some s ∧ s ∈ startNodes g)
          ∧ List.Chain' (fun a b => Arc.mk b a ∈ g.arcs) q := by
  intro j
  induction j with
  | zero =>
      intro q
      simp only [pathsUpto, List.mem_map]
      constructor
      · intro ⟨s, hs, hq⟩
        subst hq
        exact ⟨rfl, ⟨s, rfl, hs⟩, List.chain'_singleton s⟩
      · intro ⟨hlen, ⟨s, hlast, hs⟩, _⟩
        cases q with
        | nil => cases hlen
        | cons x t =>
            cases t with
            | nil =>
                refine ⟨x, ?_, rfl⟩
                have : x = s := by
                  simp only [List.getLast?_singleton] at hlast
                  injection hlast
                rw [this]
                exact hs
            | cons y t' =>
                exfalso
                simp only [List.length_cons] at hlen
                omega
  | succ j ih =>
      intro q
      show q ∈ extendAll g (pathsUpto g j) ↔ _
      simp only [extendAll, List.mem_flatMap]
      constructor
      · intro ⟨p, hp, hq⟩
        obtain ⟨hlen, ⟨s, hlast, hs⟩, hchain⟩ := (ih p).mp hp
        obtain ⟨x, t, hpx, b, hb, hqb⟩ := (mem_extendPath g p q).mp hq
        subst hqb
        subst hpx
        refine ⟨by rw [List.length_cons, hlen], ⟨s, ?_, hs⟩, ?_⟩
        · rw [List.getLast?_cons_cons]
          exact hlast
        · exact List.chain'_cons.mpr ⟨hb, hchain⟩
      · intro ⟨hlen, ⟨s, hlast, hs⟩, hchain⟩
        cases q with
        | nil => cases hlen
        | cons b q' =>
            cases q' with
            | nil =>
                exfalso
                simp only [List.length_cons, List.length_nil] at hlen
                omega
            | cons x t =>
                have hchain' := List.chain'_cons.mp hchain
                refine ⟨x :: t, (ih (x :: t)).mpr ⟨?_, ⟨s, ?_, hs⟩, hchain'.2⟩, ?_⟩
                · simp only [List.length_cons] at hlen ⊢
                  omega
                · rw [List.getLast?_cons_cons] at hlast
                  exact hlast
                · exact (mem_extendPath g (x :: t) _).mpr
                    ⟨x, t, rfl, b, hchain'.1, rfl⟩

theorem mem_enumPaths (schema : List ColType) (g : Graph) (p : List String) :
    p ∈ enumPaths schema g
      ↔ (nodeGroups schema).length ≠ 0
        ∧ p.length = (nodeGroups schema).length
        ∧ IsFullChain g p := by
  unfold enumPaths
  cases hk : (nodeGroups schema).length with
  | zero => simp
  | succ j =>
      simp only [List.mem_map]
      constructor
      · intro ⟨q, hq, hp⟩
        obtain ⟨hlen, ⟨s, hlast, hs⟩, hchain⟩ := (mem_pathsUpto g j q).mp hq
        subst hp
        refine ⟨by omega, by simp [hlen], ⟨s, ?_, hs⟩, ?_⟩
        · rw [List.head?_reverse]
          exact hlast
        · rw [List.chain'_reverse]
          exact hchain
      · intro ⟨_, hlen, ⟨s, hhead, hs⟩, hchain⟩
        refine ⟨p.reverse, (mem_pathsUpto g j p.reverse).mpr ⟨by simp [hlen], ⟨s, ?_, hs⟩, ?_⟩,
          by rw [List.reverse_reverse]⟩
        · rw [← List.head?_reverse, List.reverse_reverse]
          exact hhead
        · rw [show (fun a b => Arc.mk b a ∈ g.arcs)
              = flip (fun a b => Arc.mk a b ∈ g.arcs) from rfl]
          rw [← List.chain'_reverse, List.reverse_reverse]
          exact hchain

/-! ## Round trip, part 6: the layer structure of a valid sheet -/

/-- Node name `n` occupies node-column position `i` somewhere in the sheet. -/
def AtLayer (schema : List ColType) (rows : List (List String)) (n : String)
    (i : Nat) : Prop :=
  ∃ r ∈ rows, ∃ h : i < (rowNodes schema r).length,
    ((rowNodes schema r).get ⟨i, h⟩).name = n

theorem atLayer_unique (schema : List ColType) (rows : List (List String))
    (hv : writeRegular schema rows) (n : String) (i j : Nat)
    (hi : AtLayer schema rows n i) (hj : AtLayer schema rows n j) : i = j := by
  obtain ⟨r, hr, hlt, hname⟩ := hi
  obtain ⟨r', hr', hlt', hname'⟩ := hj
  exact hv.2 r hr r' hr' ⟨i, hlt⟩ ⟨j, hlt'⟩ (by rw [hname, hname'])

theorem atLayer_of_mem (schema : List ColType) (rows : List (List String))
    (r : List String) (x : RowNode) (hr : r ∈ rows) (hx : x ∈ rowNodes schema r) :
    ∃ i, AtLayer schema rows x.name i ∧ ∃ h : i < (rowNodes schema r).length,
      (rowNodes schema r).get ⟨i, h⟩ = x := by
  obtain ⟨⟨i, hlt⟩, hget⟩ := List.mem_iff_get.mp hx
  exact ⟨i, ⟨r, hr, hlt, by rw [hget]⟩, hlt, hget⟩

theorem rowNodes_length_valid (schema : List ColType) (rows : List (List String))
    (hv : writeRegular schema rows) (r : List String) (hr : r ∈ rows) :
    (rowNodes schema r).length = (nodeGroups schema).length := by
  have hshape := rowNodes_shape schema r (hv.1 r hr).1 (hv.1 r hr).2
  exact hshape.length_eq.symm

theorem rowNodes_get_matches (schema : List ColType) (rows : List (List String))
    (hv : writeRegular schema rows) (r : List String) (hr : r ∈ rows)
    (i : Nat) (hi : i < (rowNodes schema r).length)
    (hgi : i < (nodeGroups schema).length) :
    matchesG ((nodeGroups schema).get ⟨i, hgi⟩) ((rowNodes schema r).get ⟨i, hi⟩) := by
  have hshape := rowNodes_shape schema r (hv.1 r hr).1 (hv.1 r hr).2
  exact (List.forall₂_iff_get.mp hshape).2 i hgi hi

theorem mem_rowArcs_iff (ns : List RowNode) (a : Arc) :
    a ∈ rowArcs ns
      ↔ ∃ i, ∃ hi : i + 1 < ns.length,
          a = Arc.mk ((ns.get ⟨i, by omega⟩).name) ((ns.get ⟨i + 1, hi⟩).name) := by
  induction ns with
  | nil =>
      simp only [rowArcs, List.zipWith, List.length_nil]
      constructor
      · intro h; cases h
      · intro ⟨i, hi, _⟩; omega
  | cons x rest ih =>
      cases rest with
      | nil =>
          simp only [rowArcs, List.zipWith, List.length_cons, List.length_nil]
          constructor
          · intro h; cases h
          · intro ⟨i, hi, _⟩; omega
      | cons y t =>
          show a ∈ Arc.mk x.name y.name :: rowArcs (y :: t) ↔ _
          rw [List.mem_cons, ih]
          constructor
          · intro h
            rcases h with h1 | ⟨i, hi, ha⟩
            · exact ⟨0, by simp only [List.length_cons]; omega, h1⟩
            · refine ⟨i + 1, by simp only [List.length_cons] at hi ⊢; omega, ?_⟩
              exact ha
          · intro ⟨i, hi, ha⟩
            cases i with
            | zero => exact Or.inl ha
            | succ i' =>
                refine Or.inr ⟨i', by simp only [List.length_cons] at hi ⊢; omega, ?_⟩
                exact ha

theorem rowArcs_get_mem (ns : List RowNode) (i : Nat) (hi : i + 1 < ns.length) :
    Arc.mk ((ns.get ⟨i, by omega⟩).name) ((ns.get ⟨i + 1, hi⟩).name) ∈ rowArcs ns :=
  (mem_rowArcs_iff ns _).mpr ⟨i, hi, rfl⟩

theorem arc_layer_step (schema : List ColType) (rows : List (List String))
    (hv : writeRegular schema rows) (nA nB : String) (i : Nat)
    (ha : Arc.mk nA nB ∈ (buildGraph schema rows).arcs)
    (hA : AtLayer schema rows nA i) : AtLayer schema rows nB (i + 1) := by
  obtain ⟨r, hr, harc⟩ := (buildGraph_arcs_mem schema rows _).mp ha
  obtain ⟨j, hj, heq⟩ := (mem_rowArcs_iff _ _).mp harc
  injection heq with h1 h2
  have hAj : AtLayer schema rows nA j := ⟨r, hr, by omega, h1.symm⟩
  have hij : i = j := atLayer_unique schema rows hv nA i j hA hAj
  subst hij
  exact ⟨r, hr, hj, h2.symm⟩

/-- Node name `n` occurs in some row of the sheet. -/
def NodePresent (schema : List ColType) (rows : List (List String)) (n : String) :
    Prop :=
  ∃ r ∈ rows, ∃ x ∈ rowNodes schema r, x.name = n

theorem alookup_isSome_iff_mem (n : String) (l : List (String × α)) :
    (alookup n l).isSome = true ↔ n ∈ l.map Prod.fst := by
  cases h : alookup n l with
  | none =>
      simp only [Option.isSome_none]
      constructor
      · intro hc; cases hc
      · intro hmem
        exact absurd hmem ((alookup_eq_none_iff n l).mp h)
  | some v =>
      simp only [Option.isSome_some, true_iff]
      by_contra hmem
      rw [(alookup_eq_none_iff n l).mpr hmem] at h
      cases h

theorem mem_nodeNames_iff (g : Graph) (n : String) :
    n ∈ nodeNames g
      ↔ (alookup n g.materials).isSome = true
        ∨ (alookup n g.processes).isSome = true := by
  unfold nodeNames
  rw [List.mem_append, alookup_isSome_iff_mem, alookup_isSome_iff_mem]

theorem present_iff_nodeNames (schema : List ColType) (rows : List (List String))
    (n : String) :
    NodePresent schema rows n ↔ n ∈ nodeNames (buildGraph schema rows) := by
  rw [mem_nodeNames_iff]
  constructor
  · intro ⟨r, hr, x, hx, hn⟩
    cases hk : x.kind with
    | mat k =>
        left
        rw [← hn]
        exact buildAux_materials_isSome schema rows emptyGraph r x k hr hx hk
    | proc nt =>
        right
        rw [← hn]
        exact buildAux_processes_isSome schema rows emptyGraph r x nt hr hx hk
  · intro h
    rcases h with h1 | h1
    · cases hl : alookup n (buildGraph schema rows).materials with
      | none => rw [hl] at h1; cases h1
      | some M =>
          rcases buildAux_materials_some schema rows emptyGraph n M hl with h2 | h2
          · cases h2
          · obtain ⟨r, hr, x, hx, hn, _⟩ := h2
            exact ⟨r, hr, x, hx, hn⟩
    · cases hl : alookup n (buildGraph schema rows).processes with
      | none => rw [hl] at h1; cases h1
      | some P =>
          rcases buildAux_processes_some schema rows emptyGraph n P hl with h2 | h2
          · cases h2
          · obtain ⟨r, hr, x, hx, hn, _⟩ := h2
            exact ⟨r, hr, x, hx, hn⟩

theorem hasIncoming_iff (g : Graph) (n : String) :
    hasIncoming g n = true ↔ ∃ a ∈ g.arcs, a.head = n := by
  unfold hasIncoming
  rw [List.any_eq_true]
  constructor
  · intro ⟨a, ha, hb⟩
    exact ⟨a, ha, by rw [← beq_iff_eq]; exact hb⟩
  · intro ⟨a, ha, hb⟩
    exact ⟨a, ha, by rw [beq_iff_eq]; exact hb⟩

theorem startNodes_layer_zero (schema : List ColType) (rows : List (List String))
    (hv : writeRegular schema rows) (n : String)
    (hs : n ∈ startNodes (buildGraph schema rows)) : AtLayer schema rows n 0 := by
  obtain ⟨hnames, hni⟩ := List.mem_filter.mp hs
  have hpres := (present_iff_nodeNames schema rows n).mpr hnames
  obtain ⟨r, hr, x, hx, hn⟩ := hpres
  obtain ⟨i, hlayer, hlt, hget⟩ := atLayer_of_mem schema rows r x hr hx
  cases i with
  | zero => rw [← hn]; exact hlayer
  | succ i' =>
      exfalso
      have harc : Arc.mk (((rowNodes schema r).get ⟨i', by omega⟩).name) x.name
          ∈ (buildGraph schema rows).arcs := by
        refine (buildGraph_arcs_mem schema rows _).mpr ⟨r, hr, ?_⟩
        have := rowArcs_get_mem (rowNodes schema r) i' hlt
        rw [hget] at this
        exact this
      have : hasIncoming (buildGraph schema rows) n = true :=
        (hasIncoming_iff _ n).mpr ⟨_, harc, hn⟩
      rw [this] at hni
      cases hni

theorem layer_zero_startNodes (schema : List ColType) (rows : List (List String))
    (hv : writeRegular schema rows) (n : String)
    (hp : NodePresent schema rows n) (h0 : AtLayer schema rows n 0) :
    n ∈ startNodes (buildGraph schema rows) := by
  refine List.mem_filter.mpr ⟨(present_iff_nodeNames schema rows n).mp hp, ?_⟩
  rw [Bool.not_eq_eq_eq_not, Bool.not_true]
  by_contra hcontra
  have hinc : hasIncoming (buildGraph schema rows) n = true := by
    cases hb : hasIncoming (buildGraph schema rows) n with
    | true => rfl
    | false => exact absurd hb hcontra
  obtain ⟨a, ha, hhead⟩ := (hasIncoming_iff _ n).mp hinc
  obtain ⟨r, hr, harc⟩ := (buildGraph_arcs_mem schema rows a).mp ha
  obtain ⟨j, hj, heq⟩ := (mem_rowArcs_iff _ a).mp harc
  have hlayer : AtLayer schema rows n (j + 1) := by
    refine ⟨r, hr, hj, ?_⟩
    rw [heq] at hhead
    exact hhead
  have := atLayer_unique schema rows hv n 0 (j + 1) h0 hlayer
  omega

theorem chain_layers (schema : List ColType) (rows : List (List String))
    (hv : writeRegular schema rows) (p : List String)
    (hc : IsFullChain (buildGraph schema rows) p) :
    ∀ i, ∀ hi : i < p.length, AtLayer schema rows (p.get ⟨i, hi⟩) i := by
  intro i
  induction i with
  | zero =>
      intro hi
      obtain ⟨⟨s, hhead, hs⟩, _⟩ := hc
      cases p with
      | nil => cases hhead
      | cons x t =>
          have hx : x = s := by injection hhead
          show AtLayer schema rows x 0
          rw [hx]
          exact startNodes_layer_zero schema rows hv s hs
  | succ i' ih =>
      intro hi
      have hi' : i' < p.length := by omega
      have hchain := hc.2
      rw [List.chain'_iff_get] at hchain
      have harc := hchain i' (by omega)
      exact arc_layer_step schema rows hv _ _ i' harc (ih hi')

theorem row_chain_mem_enumPaths (schema : List ColType) (rows : List (List String))
    (hv : writeRegular schema rows) (r : List String) (hr : r ∈ rows)
    (hne : rowNodes schema r ≠ []) :
    (rowNodes schema r).map RowNode.name ∈ enumPaths schema (buildGraph schema rows) := by
  have hlen := rowNodes_length_valid schema rows hv r hr
  refine (mem_enumPaths schema _ _).mpr ⟨?_, ?_, ⟨?_, ?_⟩⟩
  · rw [← hlen]
    intro hc
    exact hne (List.length_eq_zero.mp hc)
  · rw [List.length_map, hlen]
  · cases hns : rowNodes schema r with
    | nil => exact absurd hns hne
    | cons x t =>
        refine ⟨x.name, rfl, ?_⟩
        have h0 : 0 < (rowNodes schema r).length := by rw [hns]; simp
        have hget : ((rowNodes schema r).get ⟨0, h0⟩).name = x.name := by
          rw [List.get_of_eq hns]
          rfl
        refine layer_zero_startNodes schema rows hv x.name
          ⟨r, hr, x, by rw [hns]; exact List.mem_cons_self x t, rfl⟩ ?_
        exact ⟨r, hr, h0, hget⟩
  · rw [List.chain'_iff_get]
    intro i hilt
    rw [List.length_map] at hilt
    have hi1 : i + 1 < (rowNodes schema r).length := by omega
    rw [List.get_map, List.get_map]
    refine (buildGraph_arcs_mem schema rows _).mpr ⟨r, hr, ?_⟩
    exact rowArcs_get_mem (rowNodes schema r) i hi1

/-! ## Round trip, part 7: the written rows rebuild the same graph -/

theorem layer_material_record (schema : List ColType) (rows : List (List String))
    (hv : writeRegular schema rows) (n : String) (i : Nat)
    (hi : i < (nodeGroups schema).length) (k0 : MatKind)
    (hM : ∃ M, alookup n (buildGraph schema rows).materials = some M)
    (hlayer : AtLayer schema rows n i)
    (hgk : ((nodeGroups schema).get ⟨i, hi⟩).1 = NodeKind.mat k0) :
    ∃ M : Material, alookup n (buildGraph schema rows).materials = some M
      ∧ M.name = n ∧ M.kind = k0
      ∧ M.attrs.map Attr.qual = ((nodeGroups schema).get ⟨i, hi⟩).2 := by
  obtain ⟨M, hlook⟩ := hM
  refine ⟨M, hlook, ?_⟩
  rcases buildAux_materials_some schema rows emptyGraph n M hlook with h1 | h1
  · cases h1
  · obtain ⟨r', hr', y, hy, hyn, k', hyk, hMeq⟩ := h1
    obtain ⟨i', hlayer', hlt', hget'⟩ := atLayer_of_mem schema rows r' y hr' hy
    rw [hyn] at hlayer'
    have hii : i = i' := atLayer_unique schema rows hv n i i' hlayer hlayer'
    subst hii
    have hgi : i < (nodeGroups schema).length := hi
    have hmatch := rowNodes_get_matches schema rows hv r' hr' i hlt' hgi
    rw [hget'] at hmatch
    have hkind : y.kind = NodeKind.mat k0 := by rw [hmatch.1, hgk]
    rw [hyk] at hkind
    injection hkind with hkind
    subst hkind
    have hquals : y.attrs.map Attr.qual = ((nodeGroups schema).get ⟨i, hgi⟩).2 :=
      hmatch.2.2
    rw [hMeq]
    exact ⟨rfl, rfl, hquals⟩

theorem layer_process_record (schema : List ColType) (rows : List (List String))
    (hv : writeRegular schema rows) (n : String) (i : Nat)
    (hi : i < (nodeGroups schema).length) (nt0 : Option String)
    (hP : ∃ P, alookup n (buildGraph schema rows).processes = some P)
    (hlayer : AtLayer schema rows n i)
    (hgk : ((nodeGroups schema).get ⟨i, hi⟩).1 = NodeKind.proc nt0) :
    ∃ P : Process, alookup n (buildGraph schema rows).processes = some P
      ∧ P.name = n ∧ P.nameType = nt0
      ∧ P.attrs.map Attr.qual = ((nodeGroups schema).get ⟨i, hi⟩).2 := by
  obtain ⟨P, hlook⟩ := hP
  refine ⟨P, hlook, ?_⟩
  rcases buildAux_processes_some schema rows emptyGraph n P hlook with h1 | h1
  · cases h1
  · obtain ⟨r', hr', y, hy, hyn, nt', hyk, hPeq⟩ := h1
    obtain ⟨i', hlayer', hlt', hget'⟩ := atLayer_of_mem schema rows r' y hr' hy
    rw [hyn] at hlayer'
    have hii : i = i' := atLayer_unique schema rows hv n i i' hlayer hlayer'
    subst hii
    have hmatch := rowNodes_get_matches schema rows hv r' hr' i hlt' hi
    rw [hget'] at hmatch
    have hkind : y.kind = NodeKind.proc nt0 := by rw [hmatch.1, hgk]
    rw [hyk] at hkind
    injection hkind with hkind
    subst hkind
    rw [hPeq]
    exact ⟨rfl, rfl, hmatch.2.2⟩

theorem layer_material_isSome (schema : List ColType) (rows : List (List String))
    (hv : writeRegular schema rows) (n : String) (i : Nat)
    (hi : i < (nodeGroups schema).length) (k0 : MatKind)
    (hlayer : AtLayer schema rows n i)
    (hgk : ((nodeGroups schema).get ⟨i, hi⟩).1 = NodeKind.mat k0) :
    ∃ M, alookup n (buildGraph schema rows).materials = some M := by
  obtain ⟨r, hr, hlt, hname⟩ := hlayer
  have hmatch := rowNodes_get_matches schema rows hv r hr i hlt hi
  have hkind : ((rowNodes schema r).get ⟨i, hlt⟩).kind = NodeKind.mat k0 := by
    rw [hmatch.1, hgk]
  have hsome := buildAux_materials_isSome schema rows emptyGraph r _ k0 hr
    (List.get_mem _ _ _) hkind
  rw [hname] at hsome
  cases hl : alookup n (buildGraph schema rows).materials with
  | none =>
      exfalso
      have hl' : alookup n (buildAux schema emptyGraph rows).materials = none := hl
      rw [hl'] at hsome
      cases hsome
  | some M => exact ⟨M, rfl⟩

theorem layer_process_isSome (schema : List ColType) (rows : List (List String))
    (hv : writeRegular schema rows) (n : String) (i : Nat)
    (hi : i < (nodeGroups schema).length) (nt0 : Option String)
    (hlayer : AtLayer schema rows n i)
    (hgk : ((nodeGroups schema).get ⟨i, hi⟩).1 = NodeKind.proc nt0) :
    ∃ P, alookup n (buildGraph schema rows).processes = some P := by
  obtain ⟨r, hr, hlt, hname⟩ := hlayer
  have hmatch := rowNodes_get_matches schema rows hv r hr i hlt hi
  have hkind : ((rowNodes schema r).get ⟨i, hlt⟩).kind = NodeKind.proc nt0 := by
    rw [hmatch.1, hgk]
  have hsome := buildAux_processes_isSome schema rows emptyGraph r _ nt0 hr
    (List.get_mem _ _ _) hkind
  rw [hname] at hsome
  cases hl : alookup n (buildGraph schema rows).processes with
  | none =>
      exfalso
      have hl' : alookup n (buildAux schema emptyGraph rows).processes = none := hl
      rw [hl'] at hsome
      cases hsome
  | some P => exact ⟨P, rfl⟩

theorem pathInsts_length (g : Graph) (groups : List (NodeKind × List String))
    (p : List String) (hlen : p.length = groups.length) :
    (pathInsts g groups p).length = groups.length := by
  unfold pathInsts
  rw [List.length_zipWith, hlen]
  exact min_self _

theorem pathInsts_get (g : Graph) (groups : List (NodeKind × List String))
    (p : List String) (i : Nat) (hi : i < (pathInsts g groups p).length)
    (hig : i < groups.length) (hip : i < p.length) :
    (pathInsts g groups p).get ⟨i, hi⟩
      = RowNode.mk ((groups.get ⟨i, hig⟩).1) (p.get ⟨i, hip⟩)
          (attrsFor g (groups.get ⟨i, hig⟩).1 (p.get ⟨i, hip⟩)) := by
  unfold pathInsts
  rw [List.get_zipWith]

theorem pathInsts_matches (schema : List ColType) (rows : List (List String))
    (hv : writeRegular schema rows) (p : List String)
    (hp : p ∈ enumPaths schema (buildGraph schema rows)) :
    List.Forall₂ matchesG (nodeGroups schema)
      (pathInsts (buildGraph schema rows) (nodeGroups schema) p) := by
  obtain ⟨hk, hlen, hchain⟩ := (mem_enumPaths schema _ p).mp hp
  rw [List.forall₂_iff_get]
  have hplen := pathInsts_length (buildGraph schema rows) (nodeGroups schema) p hlen
  refine ⟨hplen.symm, ?_⟩
  intro i hig hii
  have hip : i < p.length := by rw [hlen]; exact hig
  rw [pathInsts_get _ _ _ i hii hig hip]
  have hlayer : AtLayer schema rows (p.get ⟨i, hip⟩) i :=
    chain_layers schema rows hv p hchain i hip
  obtain ⟨r, hr, hlt, hname⟩ := hlayer
  have hglen : i < (nodeGroups schema).length := hig
  have hmatch := rowNodes_get_matches schema rows hv r hr i hlt hglen
  refine ⟨rfl, ?_, ?_⟩
  · rw [← hname]
    exact hmatch.2.1
  · cases hgk : ((nodeGroups schema).get ⟨i, hig⟩).1 with
    | mat k0 =>
        obtain ⟨M, hlook, _, _, hquals⟩ := layer_material_record schema rows hv
          (p.get ⟨i, hip⟩) i hig k0
          (layer_material_isSome schema rows hv _ i hig k0 ⟨r, hr, hlt, hname⟩ hgk)
          ⟨r, hr, hlt, hname⟩ hgk
        show (attrsFor (buildGraph schema rows) (NodeKind.mat k0) _).map Attr.qual = _
        unfold attrsFor
        rw [hlook]
        exact hquals
    | proc nt0 =>
        obtain ⟨P, hlook, _, _, hquals⟩ := layer_process_record schema rows hv
          (p.get ⟨i, hip⟩) i hig nt0
          (layer_process_isSome schema rows hv _ i hig nt0 ⟨r, hr, hlt, hname⟩ hgk)
          ⟨r, hr, hlt, hname⟩ hgk
        show (attrsFor (buildGraph schema rows) (NodeKind.proc nt0) _).map Attr.qual = _
        unfold attrsFor
        rw [hlook]
        exact hquals

theorem writeRow_rowNodes (schema : List ColType) (rows : List (List String))
    (hv : writeRegular schema rows) (p : List String)
    (hp : p ∈ enumPaths schema (buildGraph schema rows)) :
    rowNodes schema
        (renderRow schema (pathInsts (buildGraph schema rows) (nodeGroups schema) p))
      = pathInsts (buildGraph schema rows) (nodeGroups schema) p :=
  rowNodes_renderRow schema _
    (fits0_of_forall2 schema _ (pathInsts_matches schema rows hv p hp))

theorem mem_writeRows (schema : List ColType) (g : Graph) (r : List String) :
    r ∈ writeRows schema g
      ↔ ∃ p ∈ enumPaths schema g,
          r = renderRow schema (pathInsts g (nodeGroups schema) p) := by
  unfold writeRows
  rw [List.mem_map]
  constructor
  · intro ⟨p, hp, hr⟩
    exact ⟨p, hp, hr.symm⟩
  · intro ⟨p, hp, hr⟩
    exact ⟨p, hp, hr.symm⟩

theorem writeRows_uniform (schema : List ColType) (rows : List (List String))
    (hv : writeRegular schema rows) :
    RowsUniform schema (writeRows schema (buildGraph schema rows)) := by
  intro r hr r' hr' x hx y hy hname
  obtain ⟨p, hp, hre⟩ := (mem_writeRows schema _ r).mp hr
  obtain ⟨p', hp', hre'⟩ := (mem_writeRows schema _ r').mp hr'
  rw [hre, writeRow_rowNodes schema rows hv p hp] at hx
  rw [hre', writeRow_rowNodes schema rows hv p' hp'] at hy
  obtain ⟨hk, hlen, hchain⟩ := (mem_enumPaths schema _ p).mp hp
  obtain ⟨hk', hlen', hchain'⟩ := (mem_enumPaths schema _ p').mp hp'
  obtain ⟨⟨i, hilt⟩, hgetx⟩ := List.mem_iff_get.mp hx
  obtain ⟨⟨j, hjlt⟩, hgety⟩ := List.mem_iff_get.mp hy
  have hplen := pathInsts_length (buildGraph schema rows) (nodeGroups schema) p hlen
  have hplen' := pathInsts_length (buildGraph schema rows) (nodeGroups schema) p' hlen'
  have hig : i < (nodeGroups schema).length := by rw [← hplen]; exact hilt
  have hip : i < p.length := by rw [hlen]; exact hig
  have hjg : j < (nodeGroups schema).length := by rw [← hplen']; exact hjlt
  have hjp : j < p'.length := by rw [hlen']; exact hjg
  rw [pathInsts_get _ _ _ i hilt hig hip] at hgetx
  rw [pathInsts_get _ _ _ j hjlt hjg hjp] at hgety
  have hxlayer : AtLayer schema rows x.name i := by
    rw [← hgetx]
    exact chain_layers schema rows hv p hchain i hip
  have hylayer : AtLayer schema rows y.name j := by
    rw [← hgety]
    exact chain_layers schema rows hv p' hchain' j hjp
  rw [hname] at hxlayer
  have hij : i = j := atLayer_unique schema rows hv y.name i j hxlayer hylayer
  subst hij
  have hnames : p.get ⟨i, hip⟩ = p'.get ⟨i, hjp⟩ := by
    have hx' : x.name = p.get ⟨i, hip⟩ := by rw [← hgetx]
    have hy' : y.name = p'.get ⟨i, hjp⟩ := by rw [← hgety]
    rw [← hx', ← hy', hname]
  rw [← hgetx, ← hgety, hnames]

theorem roundtrip_materials (schema : List ColType) (rows : List (List String))
    (hv : writeRegular schema rows) (n : String) :
    alookup n (buildGraph schema (writeRows schema (buildGraph schema rows))).materials
      = alookup n (buildGraph schema rows).materials := by
  cases hG : alookup n (buildGraph schema rows).materials with
  | some M =>
      rcases buildAux_materials_some schema rows emptyGraph n M hG with h1 | h1
      · cases h1
      · obtain ⟨r, hr, y, hy, hyn, k', hyk, hMeq⟩ := h1
        obtain ⟨i, hlayer, hlt, hget⟩ := atLayer_of_mem schema rows r y hr hy
        have hglen := rowNodes_length_valid schema rows hv r hr
        have hig : i < (nodeGroups schema).length := by rw [← hglen]; exact hlt
        have hne : rowNodes schema r ≠ [] := by
          intro hc
          rw [hc] at hy
          cases hy
        have hpmem := row_chain_mem_enumPaths schema rows hv r hr hne
        set rnames := (rowNodes schema r).map RowNode.name with hrnames
        have hrlen : rnames.length = (nodeGroups schema).length := by
          rw [hrnames, List.length_map, hglen]
        have hplen := pathInsts_length (buildGraph schema rows) (nodeGroups schema)
          rnames hrlen
        have hii : i < (pathInsts (buildGraph schema rows) (nodeGroups schema)
            rnames).length := by rw [hplen]; exact hig
        have hip : i < rnames.length := by rw [hrlen]; exact hig
        have hwmem : renderRow schema
            (pathInsts (buildGraph schema rows) (nodeGroups schema) rnames)
            ∈ writeRows schema (buildGraph schema rows) :=
          (mem_writeRows schema _ _).mpr ⟨rnames, hpmem, rfl⟩
        have hwrow := writeRow_rowNodes schema rows hv rnames hpmem
        have hmatch := rowNodes_get_matches schema rows hv r hr i hlt hig
        have hgk : ((nodeGroups schema).get ⟨i, hig⟩).1 = NodeKind.mat k' := by
          rw [hget] at hmatch
          rw [← hmatch.1, hyk]
        have hnget : rnames.get ⟨i, hip⟩ = n := by
          have h1 : rnames.get ⟨i, hip⟩ = ((rowNodes schema r).get ⟨i, hlt⟩).name :=
            List.get_map RowNode.name
          rw [h1, hget, hyn]
        have hz := pathInsts_get (buildGraph schema rows) (nodeGroups schema)
          rnames i hii hig hip
        rw [hgk, hnget] at hz
        have hattrs : attrsFor (buildGraph schema rows) (NodeKind.mat k') n
            = M.attrs := by
          unfold attrsFor
          rw [hG]
        rw [hattrs] at hz
        have hzmem : RowNode.mk (NodeKind.mat k') n M.attrs
            ∈ rowNodes schema (renderRow schema
                (pathInsts (buildGraph schema rows) (nodeGroups schema) rnames)) := by
          rw [hwrow, ← hz]
          exact List.get_mem _ _ _
        have hfin := uniform_build_materials_lookup schema
          (writeRows schema (buildGraph schema rows))
          (writeRows_uniform schema rows hv) _ _ k' hwmem hzmem rfl
        have h2 : alookup n (buildGraph schema
            (writeRows schema (buildGraph schema rows))).materials
            = some (Material.mk n k' M.attrs) := hfin
        rw [h2, hMeq]
  | none =>
      have hnone : alookup n (buildGraph schema
          (writeRows schema (buildGraph schema rows))).materials = none := by
        refine (build_materials_none_iff schema
          (writeRows schema (buildGraph schema rows)) n).mpr ?_
        intro w hw x hx hxn k hk
        obtain ⟨p, hp, hre⟩ := (mem_writeRows schema _ w).mp hw
        rw [hre, writeRow_rowNodes schema rows hv p hp] at hx
        obtain ⟨hk0, hlen, hchain⟩ := (mem_enumPaths schema _ p).mp hp
        obtain ⟨⟨i, hilt⟩, hgetx⟩ := List.mem_iff_get.mp hx
        have hplen := pathInsts_length (buildGraph schema rows) (nodeGroups schema) p hlen
        have hig : i < (nodeGroups schema).length := by rw [← hplen]; exact hilt
        have hip : i < p.length := by rw [hlen]; exact hig
        rw [pathInsts_get _ _ _ i hilt hig hip] at hgetx
        have hkind : ((nodeGroups schema).get ⟨i, hig⟩).1 = NodeKind.mat k := by
          rw [← hk, ← hgetx]
        have hlayer : AtLayer schema rows n i := by
          rw [← hxn, ← hgetx]
          show AtLayer schema rows (p.get ⟨i, hip⟩) i
          exact chain_layers schema rows hv p hchain i hip
        obtain ⟨M, hM⟩ := layer_material_isSome schema rows hv n i hig k hlayer hkind
        rw [hM] at hG
        cases hG
      exact hnone

theorem roundtrip_processes (schema : List ColType) (rows : List (List String))
    (hv : writeRegular schema rows) (n : String) :
    alookup n (buildGraph schema (writeRows schema (buildGraph schema rows))).processes
      = alookup n (buildGraph schema rows).processes := by
  cases hG : alookup n (buildGraph schema rows).processes with
  | some P =>
      rcases buildAux_processes_some schema rows emptyGraph n P hG with h1 | h1
      · cases h1
      · obtain ⟨r, hr, y, hy, hyn, nt', hyk, hPeq⟩ := h1
        obtain ⟨i, hlayer, hlt, hget⟩ := atLayer_of_mem schema rows r y hr hy
        have hglen := rowNodes_length_valid schema rows hv r hr
        have hig : i < (nodeGroups schema).length := by rw [← hglen]; exact hlt
        have hne : rowNodes schema r ≠ [] := by
          intro hc
          rw [hc] at hy
          cases hy
        have hpmem := row_chain_mem_enumPaths schema rows hv r hr hne
        set rnames := (rowNodes schema r).map RowNode.name with hrnames
        have hrlen : rnames.length = (nodeGroups schema).length := by
          rw [hrnames, List.length_map, hglen]
        have hplen := pathInsts_length (buildGraph schema rows) (nodeGroups schema)
          rnames hrlen
        have hii : i < (pathInsts (buildGraph schema rows) (nodeGroups schema)
            rnames).length := by rw [hplen]; exact hig
        have hip : i < rnames.length := by rw [hrlen]; exact hig
        have hwmem : renderRow schema
            (pathInsts (buildGraph schema rows) (nodeGroups schema) rnames)
            ∈ writeRows schema (buildGraph schema rows) :=
          (mem_writeRows schema _ _).mpr ⟨rnames, hpmem, rfl⟩
        have hwrow := writeRow_rowNodes schema rows hv rnames hpmem
        have hmatch := rowNodes_get_matches schema rows hv r hr i hlt hig
        have hgk : ((nodeGroups schema).get ⟨i, hig⟩).1 = NodeKind.proc nt' := by
          rw [hget] at hmatch
          rw [← hmatch.1, hyk]
        have hnget : rnames.get ⟨i, hip⟩ = n := by
          have h1 : rnames.get ⟨i, hip⟩ = ((rowNodes schema r).get ⟨i, hlt⟩).name :=
            List.get_map RowNode.name
          rw [h1, hget, hyn]
        have hz := pathInsts_get (buildGraph schema rows) (nodeGroups schema)
          rnames i hii hig hip
        rw [hgk, hnget] at hz
        have hattrs : attrsFor (buildGraph schema rows) (NodeKind.proc nt') n
            = P.attrs := by
          unfold attrsFor
          rw [hG]
        rw [hattrs] at hz
        have hzmem : RowNode.mk (NodeKind.proc nt') n P.attrs
            ∈ rowNodes schema (renderRow schema
                (pathInsts (buildGraph schema rows) (nodeGroups schema) rnames)) := by
          rw [hwrow, ← hz]
          exact List.get_mem _ _ _
        have hfin := uniform_build_processes_lookup schema
          (writeRows schema (buildGraph schema rows))
          (writeRows_uniform schema rows hv) _ _ nt' hwmem hzmem rfl
        have h2 : alookup n (buildGraph schema
            (writeRows schema (buildGraph schema rows))).processes
            = some (Process.mk n nt' P.attrs) := hfin
        rw [h2, hPeq]
  | none =>
      have hnone : alookup n (buildGraph schema
          (writeRows schema (buildGraph schema rows))).processes = none := by
        refine (build_processes_none_iff schema
          (writeRows schema (buildGraph schema rows)) n).mpr ?_
        intro w hw x hx hxn nt hk
        obtain ⟨p, hp, hre⟩ := (mem_writeRows schema _ w).mp hw
        rw [hre, writeRow_rowNodes schema rows hv p hp] at hx
        obtain ⟨hk0, hlen, hchain⟩ := (mem_enumPaths schema _ p).mp hp
        obtain ⟨⟨i, hilt⟩, hgetx⟩ := List.mem_iff_get.mp hx
        have hplen := pathInsts_length (buildGraph schema rows) (nodeGroups schema) p hlen
        have hig : i < (nodeGroups schema).length := by rw [← hplen]; exact hilt
        have hip : i < p.length := by rw [hlen]; exact hig
        rw [pathInsts_get _ _ _ i hilt hig hip] at hgetx
        have hkind : ((nodeGroups schema).get ⟨i, hig⟩).1 = NodeKind.proc nt := by
          rw [← hk, ← hgetx]
        have hlayer : AtLayer schema rows n i := by
          rw [← hxn, ← hgetx]
          show AtLayer schema rows (p.get ⟨i, hip⟩) i
          exact chain_layers schema rows hv p hchain i hip
        obtain ⟨P, hP⟩ := layer_process_isSome schema rows hv n i hig nt hlayer hkind
        rw [hP] at hG
        cases hG
      exact hnone

theorem pathInsts_get_name (g : Graph) (groups : List (NodeKind × List String))
    (p : List String) (i : Nat) (hi : i < (pathInsts g groups p).length)
    (hig : i < groups.length) (hip : i < p.length) :
    ((pathInsts g groups p).get ⟨i, hi⟩).name = p.get ⟨i, hip⟩ := by
  rw [pathInsts_get g groups p i hi hig hip]

theorem roundtrip_arcs (schema : List ColType) (rows : List (List String))
    (hv : writeRegular schema rows) (a : Arc) :
    a ∈ (buildGraph schema (writeRows schema (buildGraph schema rows))).arcs
      ↔ a ∈ (buildGraph schema rows).arcs := by
  constructor
  · intro ha
    obtain ⟨w, hw, harc⟩ := (buildGraph_arcs_mem schema _ a).mp ha
    obtain ⟨p, hp, hre⟩ := (mem_writeRows schema _ w).mp hw
    rw [hre, writeRow_rowNodes schema rows hv p hp] at harc
    obtain ⟨j, hj, heq⟩ := (mem_rowArcs_iff _ a).mp harc
    obtain ⟨hk0, hlen, hchain⟩ := (mem_enumPaths schema _ p).mp hp
    have hplen := pathInsts_length (buildGraph schema rows) (nodeGroups schema) p hlen
    have hjg : j + 1 < (nodeGroups schema).length := by rw [← hplen]; exact hj
    have hjg0 : j < (nodeGroups schema).length := by omega
    have hjj : j < (pathInsts (buildGraph schema rows) (nodeGroups schema) p).length := by
      rw [hplen]; exact hjg0
    have hjp : j < p.length := by rw [hlen]; exact hjg0
    have hjp1 : j + 1 < p.length := by rw [hlen]; exact hjg
    rw [pathInsts_get_name (buildGraph schema rows) (nodeGroups schema) p j hjj hjg0 hjp,
        pathInsts_get_name (buildGraph schema rows) (nodeGroups schema) p (j + 1) hj hjg
          hjp1] at heq
    have hchain' := List.chain'_iff_get.mp hchain.2 j (by omega)
    rw [heq]
    exact hchain'
  · intro ha
    obtain ⟨r, hr, harc⟩ := (buildGraph_arcs_mem schema rows a).mp ha
    obtain ⟨j, hj, heq⟩ := (mem_rowArcs_iff _ a).mp harc
    have hglen := rowNodes_length_valid schema rows hv r hr
    have hne : rowNodes schema r ≠ [] := by
      intro hc
      rw [hc] at hj
      simp only [List.length_nil] at hj
      omega
    have hpmem := row_chain_mem_enumPaths schema rows hv r hr hne
    set rnames := (rowNodes schema r).map RowNode.name with hrnames
    have hrlen : rnames.length = (nodeGroups schema).length := by
      rw [hrnames, List.length_map, hglen]
    have hplen := pathInsts_length (buildGraph schema rows) (nodeGroups schema)
      rnames hrlen
    refine (buildGraph_arcs_mem schema _ a).mpr
      ⟨renderRow schema (pathInsts (buildGraph schema rows) (nodeGroups schema) rnames),
       (mem_writeRows schema _ _).mpr ⟨rnames, hpmem, rfl⟩, ?_⟩
    rw [writeRow_rowNodes schema rows hv rnames hpmem]
    have hj1 : j + 1 < (pathInsts (buildGraph schema rows) (nodeGroups schema)
        rnames).length := by
      rw [hplen, ← hglen]
      exact hj
    have hjp : j < rnames.length := by
      rw [hrnames, List.length_map]
      omega
    have hjp1 : j + 1 < rnames.length := by
      rw [hrnames, List.length_map]
      exact hj
    refine (mem_rowArcs_iff _ a).mpr ⟨j, hj1, ?_⟩
    rw [pathInsts_get_name _ _ _ j (by omega) (by rw [← hrlen]; omega) hjp,
        pathInsts_get_name _ _ _ (j + 1) hj1 (by rw [← hrlen]; exact hjp1) hjp1]
    have hn1 : rnames.get ⟨j, hjp⟩ = ((rowNodes schema r).get ⟨j, by omega⟩).name :=
      List.get_map RowNode.name
    have hn2 : rnames.get ⟨j + 1, hjp1⟩
        = ((rowNodes schema r).get ⟨j + 1, hj⟩).name :=
      List.get_map RowNode.name
    rw [hn1, hn2]
    exact heq

/-! ## Round trip, part 8: written cells come from the sheet's cells -/

/-- The cell strings a pending node contributes. -/
def optCells : Option RowNode → List String
  | some c => c.name :: c.attrs.map Attr.value
  | none => []

theorem rowNodesAux_cells :
    ∀ (pairs : List (ColType × String)) (cur : Option RowNode) (x : RowNode),
      x ∈ rowNodesAux pairs cur →
      ∀ s, s ∈ x.name :: x.attrs.map Attr.value →
        s ∈ optCells cur ++ pairs.map Prod.snd := by
  intro pairs
  induction pairs with
  | nil =>
      intro cur x hx s hs
      cases cur with
      | none => cases hx
      | some c =>
          rcases List.mem_cons.mp hx with h | h
          · subst h
            rw [List.map_nil, List.append_nil]
            exact hs
          · cases h
  | cons pr rest ih =>
      intro cur x hx s hs
      obtain ⟨col, cell⟩ := pr
      have hsnd : ((col, cell) :: rest).map Prod.snd = cell :: rest.map Prod.snd := rfl
      cases col with
      | matCol k =>
          by_cases hcell : cell = ""
          · have hx' : x ∈ rowNodesAux rest cur := by
              unfold rowNodesAux at hx
              rw [if_pos hcell] at hx
              exact hx
            have := ih cur x hx' s hs
            rw [hsnd]
            rcases List.mem_append.mp this with h | h
            · exact List.mem_append.mpr (Or.inl h)
            · exact List.mem_append.mpr (Or.inr (List.mem_cons.mpr (Or.inr h)))
          · have hx' : x ∈ cur.toList
                ++ rowNodesAux rest (some ⟨NodeKind.mat k, cell, []⟩) := by
              unfold rowNodesAux at hx
              rw [if_neg hcell] at hx
              exact hx
            rw [hsnd]
            rcases List.mem_append.mp hx' with h | h
            · cases cur with
              | none => cases h
              | some c =>
                  rcases List.mem_cons.mp h with h2 | h2
                  · subst h2
                    exact List.mem_append.mpr (Or.inl hs)
                  · cases h2
            · have := ih (some ⟨NodeKind.mat k, cell, []⟩) x h s hs
              rcases List.mem_append.mp this with h2 | h2
              · rcases List.mem_cons.mp h2 with h3 | h3
                · exact List.mem_append.mpr
                    (Or.inr (List.mem_cons.mpr (Or.inl h3)))
                · cases h3
              · exact List.mem_append.mpr (Or.inr (List.mem_cons.mpr (Or.inr h2)))
      | procCol nt =>
          by_cases hcell : cell = ""
          · have hx' : x ∈ rowNodesAux rest cur := by
              unfold rowNodesAux at hx
              rw [if_pos hcell] at hx
              exact hx
            have := ih cur x hx' s hs
            rw [hsnd]
            rcases List.mem_append.mp this with h | h
            · exact List.mem_append.mpr (Or.inl h)
            · exact List.mem_append.mpr (Or.inr (List.mem_cons.mpr (Or.inr h)))
          · have hx' : x ∈ cur.toList
                ++ rowNodesAux rest (some ⟨NodeKind.proc nt, cell, []⟩) := by
              unfold rowNodesAux at hx
              rw [if_neg hcell] at hx
              exact hx
            rw [hsnd]
            rcases List.mem_append.mp hx' with h | h
            · cases cur with
              | none => cases h
              | some c =>
                  rcases List.mem_cons.mp h with h2 | h2
                  · subst h2
                    exact List.mem_append.mpr (Or.inl hs)
                  · cases h2
            · have := ih (some ⟨NodeKind.proc nt, cell, []⟩) x h s hs
              rcases List.mem_append.mp this with h2 | h2
              · rcases List.mem_cons.mp h2 with h3 | h3
                · exact List.mem_append.mpr
                    (Or.inr (List.mem_cons.mpr (Or.inl h3)))
                · cases h3
              · exact List.mem_append.mpr (Or.inr (List.mem_cons.mpr (Or.inr h2)))
      | attrCol q =>
          have hx' : x ∈ rowNodesAux rest
              (cur.map (fun n => { n with attrs := n.attrs ++ [⟨q, cell⟩] })) := hx
          have := ih _ x hx' s hs
          rw [hsnd]
          rcases List.mem_append.mp this with h | h
          · cases cur with
            | none => cases h
            | some c =>
                rcases List.mem_cons.mp h with h2 | h2
                · exact List.mem_append.mpr
                    (Or.inl (List.mem_cons.mpr (Or.inl h2)))
                · rw [List.map_append] at h2
                  rcases List.mem_append.mp h2 with h3 | h3
                  · exact List.mem_append.mpr
                      (Or.inl (List.mem_cons.mpr (Or.inr h3)))
                  · rcases List.mem_cons.mp h3 with h4 | h4
                    · exact List.mem_append.mpr
                        (Or.inr (List.mem_cons.mpr (Or.inl h4)))
                    · cases h4
          · exact List.mem_append.mpr (Or.inr (List.mem_cons.mpr (Or.inr h)))

theorem rowNodes_cells (schema : List ColType) (r : List String) (x : RowNode)
    (hx : x ∈ rowNodes schema r) (s : String)
    (hs : s ∈ x.name :: x.attrs.map Attr.value) : s ∈ r := by
  have := rowNodesAux_cells (schema.zip r) none x hx s hs
  rw [show optCells none = [] from rfl, List.nil_append] at this
  obtain ⟨pr, hpr, hps⟩ := List.mem_map.mp this
  rw [← hps]
  obtain ⟨c, cc⟩ := pr
  exact (List.of_mem_zip hpr).2

theorem material_record_cells (schema : List ColType) (rows : List (List String))
    (n : String) (M : Material)
    (h : alookup n (buildGraph schema rows).materials = some M) (s : String)
    (hs : s ∈ M.name :: M.attrs.map Attr.value) : ∃ r ∈ rows, s ∈ r := by
  rcases buildAux_materials_some schema rows emptyGraph n M h with h1 | h1
  · cases h1
  · obtain ⟨r, hr, y, hy, hyn, k, hyk, hMeq⟩ := h1
    refine ⟨r, hr, rowNodes_cells schema r y hy s ?_⟩
    rw [hMeq] at hs
    simp only at hs
    rcases List.mem_cons.mp hs with h2 | h2
    · rw [← hyn] at h2
      exact List.mem_cons.mpr (Or.inl h2)
    · exact List.mem_cons.mpr (Or.inr h2)

theorem process_record_cells (schema : List ColType) (rows : List (List String))
    (n : String) (P : Process)
    (h : alookup n (buildGraph schema rows).processes = some P) (s : String)
    (hs : s ∈ P.name :: P.attrs.map Attr.value) : ∃ r ∈ rows, s ∈ r := by
  rcases buildAux_processes_some schema rows emptyGraph n P h with h1 | h1
  · cases h1
  · obtain ⟨r, hr, y, hy, hyn, nt, hyk, hPeq⟩ := h1
    refine ⟨r, hr, rowNodes_cells schema r y hy s ?_⟩
    rw [hPeq] at hs
    simp only at hs
    rcases List.mem_cons.mp hs with h2 | h2
    · rw [← hyn] at h2
      exact List.mem_cons.mpr (Or.inl h2)
    · exact List.mem_cons.mpr (Or.inr h2)

theorem renderAux_cells :
    ∀ (cs : List ColType) (ns : List RowNode) (pend : List Attr) (s : String),
      s ∈ renderAux cs ns pend →
      s = "" ∨ (∃ x ∈ ns, s ∈ x.name :: x.attrs.map Attr.value)
        ∨ ∃ a ∈ pend, s = a.value := by
  intro cs
  induction cs with
  | nil => intro ns pend s hs; cases hs
  | cons col rest ih =>
      intro ns pend s hs
      cases col with
      | attrCol q =>
          cases pend with
          | nil =>
              rcases List.mem_cons.mp hs with h | h
              · exact Or.inl h
              · rcases ih ns [] s h with h1 | h1 | h1
                · exact Or.inl h1
                · exact Or.inr (Or.inl h1)
                · obtain ⟨a, ha, _⟩ := h1
                  cases ha
          | cons a pend' =>
              rcases List.mem_cons.mp hs with h | h
              · exact Or.inr (Or.inr ⟨a, List.mem_cons_self a pend', h⟩)
              · rcases ih ns pend' s h with h1 | h1 | h1
                · exact Or.inl h1
                · exact Or.inr (Or.inl h1)
                · obtain ⟨a', ha', hs'⟩ := h1
                  exact Or.inr (Or.inr ⟨a', List.mem_cons.mpr (Or.inr ha'), hs'⟩)
      | matCol k =>
          cases ns with
          | nil =>
              rcases List.mem_cons.mp hs with h | h
              · exact Or.inl h
              · rcases ih [] [] s h with h1 | h1 | h1
                · exact Or.inl h1
                · obtain ⟨x, hx, _⟩ := h1
                  cases hx
                · obtain ⟨a, ha, _⟩ := h1
                  cases ha
          | cons n ns' =>
              rcases List.mem_cons.mp hs with h | h
              · exact Or.inr (Or.inl ⟨n, List.mem_cons_self n ns',
                  List.mem_cons.mpr (Or.inl h)⟩)
              · rcases ih ns' n.attrs s h with h1 | h1 | h1
                · exact Or.inl h1
                · obtain ⟨x, hx, hs'⟩ := h1
                  exact Or.inr (Or.inl ⟨x, List.mem_cons.mpr (Or.inr hx), hs'⟩)
                · obtain ⟨a, ha, hs'⟩ := h1
                  refine Or.inr (Or.inl ⟨n, List.mem_cons_self n ns', ?_⟩)
                  rw [hs']
                  exact List.mem_cons.mpr (Or.inr (List.mem_map.mpr ⟨a, ha, rfl⟩))
      | procCol nt =>
          cases ns with
          | nil =>
              rcases List.mem_cons.mp hs with h | h
              · exact Or.inl h
              · rcases ih [] [] s h with h1 | h1 | h1
                · exact Or.inl h1
                · obtain ⟨x, hx, _⟩ := h1
                  cases hx
                · obtain ⟨a, ha, _⟩ := h1
                  cases ha
          | cons n ns' =>
              rcases List.mem_cons.mp hs with h | h
              · exact Or.inr (Or.inl ⟨n, List.mem_cons_self n ns',
                  List.mem_cons.mpr (Or.inl h)⟩)
              · rcases ih ns' n.attrs s h with h1 | h1 | h1
                · exact Or.inl h1
                · obtain ⟨x, hx, hs'⟩ := h1
                  exact Or.inr (Or.inl ⟨x, List.mem_cons.mpr (Or.inr hx), hs'⟩)
                · obtain ⟨a, ha, hs'⟩ := h1
                  refine Or.inr (Or.inl ⟨n, List.mem_cons_self n ns', ?_⟩)
                  rw [hs']
                  exact List.mem_cons.mpr (Or.inr (List.mem_map.mpr ⟨a, ha, rfl⟩))

theorem writeRow_cells (schema : List ColType) (rows : List (List String))
    (hv : writeRegular schema rows) (p : List String)
    (hp : p ∈ enumPaths schema (buildGraph schema rows)) (s : String)
    (hs : s ∈ renderRow schema
        (pathInsts (buildGraph schema rows) (nodeGroups schema) p)) :
    s = "" ∨ ∃ r ∈ rows, s ∈ r := by
  rcases renderAux_cells schema _ [] s hs with h | h | h
  · exact Or.inl h
  · obtain ⟨x, hx, hs'⟩ := h
    obtain ⟨hk0, hlen, hchain⟩ := (mem_enumPaths schema _ p).mp hp
    obtain ⟨⟨i, hilt⟩, hgetx⟩ := List.mem_iff_get.mp hx
    have hplen := pathInsts_length (buildGraph schema rows) (nodeGroups schema) p hlen
    have hig : i < (nodeGroups schema).length := by rw [← hplen]; exact hilt
    have hip : i < p.length := by rw [hlen]; exact hig
    rw [pathInsts_get _ _ _ i hilt hig hip] at hgetx
    have hlayer : AtLayer schema rows (p.get ⟨i, hip⟩) i :=
      chain_layers schema rows hv p hchain i hip
    rw [← hgetx] at hs'
    rcases List.mem_cons.mp hs' with h2 | h2
    · obtain ⟨r, hr, hlt, hname⟩ := hlayer
      refine Or.inr ⟨r, hr, ?_⟩
      rw [h2]
      have hmem := List.get_mem (rowNodes schema r) i hlt
      refine rowNodes_cells schema r ((rowNodes schema r).get ⟨i, hlt⟩) hmem _ ?_
      rw [hname]
      exact List.mem_cons.mpr (Or.inl rfl)
    · simp only at h2
      cases hgk : ((nodeGroups schema).get ⟨i, hig⟩).1 with
      | mat k0 =>
          rw [hgk] at h2
          cases hlook : alookup (p.get ⟨i, hip⟩)
              (buildGraph schema rows).materials with
          | none =>
              unfold attrsFor at h2
              rw [hlook] at h2
              cases h2
          | some M =>
              unfold attrsFor at h2
              rw [hlook] at h2
              exact Or.inr (material_record_cells schema rows _ M hlook s
                (List.mem_cons.mpr (Or.inr h2)))
      | proc nt0 =>
          rw [hgk] at h2
          cases hlook : alookup (p.get ⟨i, hip⟩)
              (buildGraph schema rows).processes with
          | none =>
              unfold attrsFor at h2
              rw [hlook] at h2
              cases h2
          | some P =>
              unfold attrsFor at h2
              rw [hlook] at h2
              exact Or.inr (process_record_cells schema rows _ P hlook s
                (List.mem_cons.mpr (Or.inr h2)))
  · obtain ⟨a, ha, _⟩ := h
    cases ha

/-- The sheet's cells are compatible with the tokenizer's separators: the
quote character, if any, is not the tab character, and no cell contains a
tab character. -/
def cleanCells (q : Option Char) (rows : List (List String)) : Prop :=
  q ≠ some '\t' ∧ ∀ r ∈ rows, ∀ s ∈ r, ¬ '\t' ∈ s.data

theorem writeLines_tokenize (q : Option Char) (schema : List ColType)
    (rows : List (List String)) (hv : writeRegular schema rows)
    (hc : cleanCells q rows) :
    ((writeSheetLines q schema (buildGraph schema rows)).drop 1).map (tokenizeLine q)
      = writeRows schema (buildGraph schema rows) := by
  show ((writeRows schema (buildGraph schema rows)).map (encodeRow q)).map
      (tokenizeLine q) = writeRows schema (buildGraph schema rows)
  rw [List.map_map]
  refine map_self_of_pointwise _ _ (fun w hw => ?_)
  obtain ⟨p, hp, hre⟩ := (mem_writeRows schema _ w).mp hw
  obtain ⟨hk0, hlen, hchain⟩ := (mem_enumPaths schema _ p).mp hp
  have hschema : schema ≠ [] := by
    intro hcon
    rw [hcon] at hk0
    exact hk0 rfl
  have hwlen : w.length = schema.length := by
    rw [hre]
    exact renderAux_length schema _ []
  show tokenizeLine q (encodeRow q w) = w
  refine tokenizeLine_encodeRow q hc.1 w ?_ ?_
  · intro hcon
    rw [hcon] at hwlen
    cases hsc : schema with
    | nil => exact hschema hsc
    | cons c cs =>
        rw [hsc] at hwlen
        cases hwlen
  · intro s hsw
    have hs' : s ∈ renderRow schema
        (pathInsts (buildGraph schema rows) (nodeGroups schema) p) := by
      rw [← hre]
      exact hsw
    rcases writeRow_cells schema rows hv p hp s hs' with h | h
    · rw [h]
      intro hcon
      cases hcon
    · obtain ⟨r, hr, hsr⟩ := h
      exact hc.2 r hr s hsr

instance writeRegular_dec (schema : List ColType) (rows : List (List String)) :
    Decidable (writeRegular schema rows) := by
  unfold writeRegular
  exact inferInstance

instance cleanCells_dec (q : Option Char) (rows : List (List String)) :
    Decidable (cleanCells q rows) := by
  unfold cleanCells
  exact inferInstance

/-- A small structurally valid assay sheet with an attribute column, a shared
pooling process and two source/sample chains, used to witness the round-trip
theorems at a concrete input. -/
def sampleSchema : List ColType :=
  [ColType.matCol MatKind.source, ColType.attrCol "Characteristics[organism]",
   ColType.procCol none, ColType.matCol MatKind.sample]

/-- The data rows of the concrete witness sheet. -/
def sampleRows : List (List String) :=
  [["s1", "human", "p1", "sam1"], ["s2", "mouse", "p1", "sam2"]]

/-- Claim C1, amended: for every structurally valid assay sheet that is also
write-regular (no empty node-producing cell and node names positionally
consistent, i.e. splits and pools fully represented) and whose cells are
compatible with the tokenizer's separators, tokenizing the Writer's output
with the same quoting policy and rebuilding a Graph yields a Graph isomorphic
to the one built from the sheet: same Material mapping, same Process mapping
with the same attribute values, and same Arc set, up to row ordering.  The
unamended claim, over all structurally valid sheets, is refuted by
c1_write_read_roundtrip_counterexample. -/
theorem c1_write_read_roundtrip (q : Option Char) (schema : List ColType)
    (rows : List (List String)) (hv : writeRegular schema rows)
    (hc : cleanCells q rows) :
    GraphIso
      (buildGraph schema
        (((writeSheetLines q schema (buildGraph schema rows)).drop 1).map
          (tokenizeLine q)))
      (buildGraph schema rows) := by
  rw [writeLines_tokenize q schema rows hv hc]
  exact ⟨roundtrip_materials schema rows hv, roundtrip_processes schema rows hv,
         roundtrip_arcs schema rows hv⟩

/-! ## Round trip, part 9: isomorphic graphs write the same line set -/

theorem graphIso_hasIncoming {g₁ g₂ : Graph} (hiso : GraphIso g₁ g₂) (n : String) :
    hasIncoming g₁ n = hasIncoming g₂ n := by
  cases h2 : hasIncoming g₂ n with
  | true =>
      obtain ⟨a, ha, hh⟩ := (hasIncoming_iff g₂ n).mp h2
      exact (hasIncoming_iff g₁ n).mpr ⟨a, (hiso.2.2 a).mpr ha, hh⟩
  | false =>
      cases h1 : hasIncoming g₁ n with
      | false => rfl
      | true =>
          obtain ⟨a, ha, hh⟩ := (hasIncoming_iff g₁ n).mp h1
          have := (hasIncoming_iff g₂ n).mpr ⟨a, (hiso.2.2 a).mp ha, hh⟩
          rw [this] at h2
          cases h2

theorem graphIso_startNodes {g₁ g₂ : Graph} (hiso : GraphIso g₁ g₂) (n : String) :
    n ∈ startNodes g₁ ↔ n ∈ startNodes g₂ := by
  unfold startNodes
  rw [List.mem_filter, List.mem_filter, mem_nodeNames_iff, mem_nodeNames_iff,
      hiso.1 n, hiso.2.1 n, graphIso_hasIncoming hiso n]

theorem graphIso_chain {g₁ g₂ : Graph} (hiso : GraphIso g₁ g₂) (p : List String) :
    List.Chain' (fun a b => Arc.mk a b ∈ g₁.arcs) p
      ↔ List.Chain' (fun a b => Arc.mk a b ∈ g₂.arcs) p := by
  rw [List.chain'_iff_get, List.chain'_iff_get]
  constructor
  · intro h i hi
    exact (hiso.2.2 _).mp (h i hi)
  · intro h i hi
    exact (hiso.2.2 _).mpr (h i hi)

theorem graphIso_enumPaths {g₁ g₂ : Graph} (hiso : GraphIso g₁ g₂)
    (schema : List ColType) (p : List String) :
    p ∈ enumPaths schema g₁ ↔ p ∈ enumPaths schema g₂ := by
  rw [mem_enumPaths, mem_enumPaths]
  constructor
  · intro ⟨hk, hlen, ⟨s, hh, hs⟩, hc⟩
    exact ⟨hk, hlen, ⟨s, hh, (graphIso_startNodes hiso s).mp hs⟩,
           (graphIso_chain hiso p).mp hc⟩
  · intro ⟨hk, hlen, ⟨s, hh, hs⟩, hc⟩
    exact ⟨hk, hlen, ⟨s, hh, (graphIso_startNodes hiso s).mpr hs⟩,
           (graphIso_chain hiso p).mpr hc⟩

theorem graphIso_attrsFor {g₁ g₂ : Graph} (hiso : GraphIso g₁ g₂)
    (kd : NodeKind) (n : String) : attrsFor g₁ kd n = attrsFor g₂ kd n := by
  unfold attrsFor
  cases kd with
  | mat k => rw [hiso.1 n]
  | proc nt => rw [hiso.2.1 n]

theorem graphIso_pathInsts {g₁ g₂ : Graph} (hiso : GraphIso g₁ g₂) :
    ∀ (groups : List (NodeKind × List String)) (p : List String),
      pathInsts g₁ groups p = pathInsts g₂ groups p := by
  intro groups
  induction groups with
  | nil => intro p; rfl
  | cons gr rest ih =>
      intro p
      cases p with
      | nil => rfl
      | cons n p' =>
          show RowNode.mk gr.1 n (attrsFor g₁ gr.1 n) :: pathInsts g₁ rest p'
              = RowNode.mk gr.1 n (attrsFor g₂ gr.1 n) :: pathInsts g₂ rest p'
          rw [graphIso_attrsFor hiso gr.1 n, ih p']

theorem graphIso_writeSheetLines {g₁ g₂ : Graph} (hiso : GraphIso g₁ g₂)
    (q : Option Char) (schema : List ColType) :
    lineSetEq (writeSheetLines q schema g₁) (writeSheetLines q schema g₂) := by
  intro l
  unfold writeSheetLines
  rw [List.mem_cons, List.mem_cons]
  constructor
  · intro h
    rcases h with h1 | h1
    · exact Or.inl h1
    · obtain ⟨w, hw, hl⟩ := List.mem_map.mp h1
      obtain ⟨p, hp, hre⟩ := (mem_writeRows schema g₁ w).mp hw
      refine Or.inr (List.mem_map.mpr ⟨w, ?_, hl⟩)
      refine (mem_writeRows schema g₂ w).mpr
        ⟨p, (graphIso_enumPaths hiso schema p).mp hp, ?_⟩
      rw [hre, graphIso_pathInsts hiso]
  · intro h
    rcases h with h1 | h1
    · exact Or.inl h1
    · obtain ⟨w, hw, hl⟩ := List.mem_map.mp h1
      obtain ⟨p, hp, hre⟩ := (mem_writeRows schema g₂ w).mp hw
      refine Or.inr (List.mem_map.mpr ⟨w, ?_, hl⟩)
      refine (mem_writeRows schema g₁ w).mpr
        ⟨p, (graphIso_enumPaths hiso schema p).mpr hp, ?_⟩
      rw [hre, graphIso_pathInsts hiso]

/-- Claim C2, amended: for every structurally valid assay sheet that is also
write-regular (no empty node-producing cell and node names positionally
consistent) and whose cells are compatible with the tokenizer's separators,
writing is idempotent under read-write cycles: writing, re-reading
(tokenizing with the same quoting policy and rebuilding the Graph) and
writing again yields the same output lines up to row order, row order being
explicitly unordered for the comparison.  The unamended claim, over all
structurally valid sheets, is refuted by
c2_write_idempotent_counterexample. -/
theorem c2_write_idempotent (q : Option Char) (schema : List ColType)
    (rows : List (List String)) (hv : writeRegular schema rows)
    (hc : cleanCells q rows) :
    lineSetEq
      (writeSheetLines q schema
        (buildGraph schema
          (((writeSheetLines q schema (buildGraph schema rows)).drop 1).map
            (tokenizeLine q))))
      (writeSheetLines q schema (buildGraph schema rows)) := by
  rw [writeLines_tokenize q schema rows hv hc]
  exact graphIso_writeSheetLines
    ⟨roundtrip_materials schema rows hv, roundtrip_processes schema rows hv,
     roundtrip_arcs schema rows hv⟩ q schema

theorem c1_write_read_roundtrip_witness :
    writeRegular sampleSchema sampleRows
      ∧ cleanCells (some '"') sampleRows
      ∧ GraphIso
          (buildGraph sampleSchema
            (((writeSheetLines (some '"') sampleSchema
                (buildGraph sampleSchema sampleRows)).drop 1).map
              (tokenizeLine (some '"'))))
          (buildGraph sampleSchema sampleRows) :=
  ⟨by decide, by decide,
   c1_write_read_roundtrip (some '"') sampleSchema sampleRows (by decide) (by decide)⟩

theorem c2_write_idempotent_witness :
    writeRegular sampleSchema sampleRows
      ∧ cleanCells (some '"') sampleRows
      ∧ lineSetEq
          (writeSheetLines (some '"') sampleSchema
            (buildGraph sampleSchema
              (((writeSheetLines (some '"') sampleSchema
                  (buildGraph sampleSchema sampleRows)).drop 1).map
                (tokenizeLine (some '"')))))
          (writeSheetLines (some '"') sampleSchema
            (buildGraph sampleSchema sampleRows)) :=
  ⟨by decide, by decide,
   c2_write_idempotent (some '"') sampleSchema sampleRows (by decide) (by decide)⟩

/-- A sheet that passes the spec's structural checks (uniform row length;
empty node cells are benign per spec section 4.3) but is not write-regular:
each row leaves one node-producing cell empty. -/
def gappySchema : List ColType :=
  [ColType.matCol MatKind.source, ColType.matCol MatKind.sample]

/-- The data rows of the gappy sheet: two half-filled rows. -/
def gappyRows : List (List String) := [["s1", ""], ["", "sam1"]]

/-- Counterexample to claim C1 as originally worded: the gappy sheet passes
the structural check and its cells are separator-compatible, yet the graph
rebuilt from the Writer's output is not isomorphic to the one built from the
sheet (the writer's traversal paths cannot reach the isolated nodes, so the
rebuilt graph loses Material "s1"). -/
theorem c1_write_read_roundtrip_counterexample :
    structuralOkB gappySchema gappyRows = true
      ∧ cleanCells none gappyRows
      ∧ ¬ GraphIso
          (buildGraph gappySchema
            (((writeSheetLines none gappySchema
                (buildGraph gappySchema gappyRows)).drop 1).map (tokenizeLine none)))
          (buildGraph gappySchema gappyRows) :=
  ⟨by decide, by decide, fun h => absurd (h.1 "s1") (by decide)⟩

/-- A sheet that passes the spec's structural checks but carries the node
name "n" at two different node-producing columns (an extract column of one
row and the sample column of another), so it is not write-regular. -/
def crossSchema : List ColType :=
  [ColType.matCol MatKind.source, ColType.matCol MatKind.extract,
   ColType.attrCol "Characteristics[q]", ColType.matCol MatKind.sample]

/-- The data rows of the cross-positioned sheet. -/
def crossRows : List (List String) :=
  [["b", "m", "w", "z1"], ["x", "n", "v", "y"], ["b", "m2", "u", "n"]]

/-- Counterexample to claim C2 as originally worded: the cross-positioned
sheet passes the structural check and its cells are separator-compatible, yet
write(read(write(read(S)))) is not line-set-equal to write(read(S)): the
first written output lists "n" first in a row whose column group carries no
attribute columns, so re-reading rebuilds "n" without its attribute value and
the second write emits a row with an empty attribute cell in place of the
value "v" of the first write's corresponding row. -/
theorem c2_write_idempotent_counterexample :
    structuralOkB crossSchema crossRows = true
      ∧ cleanCells none crossRows
      ∧ ¬ lineSetEq
          (writeSheetLines none crossSchema
            (buildGraph crossSchema
              (((writeSheetLines none crossSchema
                  (buildGraph crossSchema crossRows)).drop 1).map (tokenizeLine none))))
          (writeSheetLines none crossSchema (buildGraph crossSchema crossRows)) :=
  ⟨by decide, by decide,
   fun h => absurd ((h ("x\tn\tv\ty").data).mpr (by decide)) (by decide)⟩

end Altamisa
